import Mathlib

set_option linter.unusedVariables false
set_option linter.unusedSectionVars false

/-- Classical decidability, as a low-priority fallback, for the
real-number comparisons appearing in `if` tests of the modelled numpy
code.  Decidable types (`ℕ`, `ℚ`, `String`) keep their computable
instances. -/
noncomputable instance (priority := low) instPropDecidable (p : Prop) : Decidable p :=
  Classical.propDecidable p

/-!
# Verification of `Analysis/bound_mass.py`

A shallow embedding, in Lean 4, of the bound-mass analysis utility
(`bound_mass`, `_bm_kory`, `_bm_naor2`, `fast_clumps`, `_potential`)
together with theorems settling the specification claims about it.

Modelling conventions:
* numpy float arithmetic is modelled by exact real arithmetic (`ℝ`);
  `fast_clumps`, whose tests only compare squared distances, is modelled
  polymorphically over a linear ordered field so that it can also be run
  on `ℚ` for concrete executable instances;
* a Python list of fixed length holding numbers is modelled either as a
  `List` (when its length/contents are the data of interest) or, for the
  mutable accumulator arrays (`U` in `_potential`, `labels` in
  `fast_clumps`), as a function `ℕ → _` updated with `Function.update`,
  the result being read back over `List.range n`;
* a failing Python statement (a failed `assert`, a call to an undefined
  name, an out-of-range list write) is modelled by an `Except`/`Option`
  error value.
-/

/-- Python exceptions that the modelled code can raise.
`assertionError` models a failed `assert` statement; `nameError` models a
reference to an undefined name (`_bm_jutzi` and `_bm_naor1` are called by
`bound_mass` but defined nowhere, and the `naor2` branch returns the local
variables `M_bound`, `ind_bound` without ever assigning them). -/
inductive PyErr where
  | assertionError : PyErr
  | nameError : PyErr
  deriving DecidableEq

/-- A 3-vector of reals, modelling one row of an n-by-3 numpy array. -/
abbrev R3 : Type := ℝ × ℝ × ℝ

/-- `np.dot` of two 3-vectors. -/
def dot3 (p q : R3) : ℝ := p.1 * q.1 + p.2.1 * q.2.1 + p.2.2 * q.2.2

/-- One inner-loop body of `_potential`: the symmetric update
`U[j] -= m[k]/dr; U[k] -= m[j]/dr` with `dr` the euclidean distance
between particles `j` and `k`. -/
noncomputable def potStep (x y z m : List ℝ) (j k : ℕ) (U : ℕ → ℝ) : ℕ → ℝ :=
  let dx := x.getD j 0 - x.getD k 0
  let dy := y.getD j 0 - y.getD k 0
  let dz := z.getD j 0 - z.getD k 0
  let dr := Real.sqrt (dx * dx + dy * dy + dz * dz)
  let U1 := Function.update U j (U j - m.getD k 0 / dr)
  Function.update U1 k (U1 k - m.getD j 0 / dr)

/-- `_potential(x, y, z, m, mask=None)` from `Analysis/bound_mass.py`.
The accumulator array `U` (initialised to `np.zeros`) is modelled as a
function `ℕ → ℝ`.  Note the source guards only the *outer* index `j` by
`mask[j]`; the inner index `k` ranges over all of `range(j)` unmasked.
There is no guard against `dr == 0` (numpy float division by zero does not
raise); in this exact-arithmetic model a zero `dr` contributes the Lean
division-by-zero junk value. -/
noncomputable def _potential (x y z m : List ℝ)
    (mask : Option (List Bool) := none) : ℕ → ℝ :=
  let msk := mask.getD (List.replicate x.length true)
  (List.range x.length).foldl
    (fun U j =>
      if msk.getD j false then (List.range j).foldl (fun U k => potStep x y z m j k U) U
      else U)
    (fun _ => 0)

/-- `G` rescaled by the unit triple: `6.67384e-11*units[0]**(-3)*units[1]*units[2]**2`. -/
noncomputable def bigG (units : R3) : ℝ :=
  6.67384e-11 * units.1 ^ (-3 : ℤ) * units.2.1 * units.2.2 ^ 2

/-- `_bm_kory(pos, vel, m, bigG)` from `Analysis/bound_mass.py`.  The
source computes `U = bigG*_potential(...)` and then ignores it, returning
the hard-coded pair `(1, [True, False, False])`. -/
noncomputable def _bm_kory (pos vel : List R3) (m : List ℝ) (G : ℝ) :
    ℝ × List Bool :=
  let U := fun i => G * _potential (pos.map (·.1)) (pos.map (·.2.1)) (pos.map (·.2.2)) m none i
  (1, [true, false, false])

/-- `bound_mass(pos, vel, m, method, units)` from `Analysis/bound_mass.py`.
The assert block is modelled by a single validity test (all the asserts
raise the same `AssertionError`; the shape asserts hold by construction of
the `R3` row type).  The dispatch: `kory` calls `_bm_kory`; `jutzi` and
`naor1` call the undefined names `_bm_jutzi`, `_bm_naor1` (`NameError`);
the `naor2` branch only prints and then returns the never-assigned locals
`M_bound`, `ind_bound` (`NameError`). -/
noncomputable def bound_mass (pos vel : List R3) (m : List ℝ)
    (method : String) (units : R3) : Except PyErr (ℝ × List Bool) :=
  if ¬ ((∀ x ∈ m, 0 < x) ∧ 0 < units.1 ∧ 0 < units.2.1 ∧ 0 < units.2.2 ∧
        pos.length = vel.length ∧ vel.length = m.length ∧
        method ∈ (["kory", "jutzi", "naor1", "naor2"] : List String)) then
    .error .assertionError
  else
    let G := bigG units
    if method = "kory" then .ok (_bm_kory pos vel m G)
    else if method = "jutzi" then .error .nameError
    else if method = "naor1" then .error .nameError
    else .error .nameError

/-- Squared euclidean distance between two coordinate triples, as computed
inline by `fast_clumps`: `(pj[0]-pk[0])**2 + (pj[1]-pk[1])**2 + (pj[2]-pk[2])**2`. -/
def d2 {α : Type} [LinearOrderedField α] (p q : α × α × α) : α :=
  (p.1 - q.1) ^ 2 + (p.2.1 - q.2.1) ^ 2 + (p.2.2 - q.2.2) ^ 2

section FastClumps

variable {α : Type} [LinearOrderedField α] [DecidableRel ((· < ·) : α → α → Prop)]

/-- Read `labels[i]`: all reads the source performs are in range, so the
default value of `List.getD` is never produced (proved by the range
invariants below). -/
def lget (lab : List ℕ) (i : ℕ) : ℕ := lab.getD i 0

/-- One inner-loop body of `fast_clumps` at outer index `j`, inner index
`k`: the resolution step `labels[k] = labels[labels[k]]` followed, when
particles `j` and `k` are closer than the threshold, by the union step
`labels[labels[labels[k]]] = j`. -/
def clInner (pos : List (α × α × α)) (L2 : α) (j k : ℕ) (lab : List ℕ) : List ℕ :=
  let lab1 := lab.set k (lget lab (lget lab k))
  if d2 (pos.getD j (0,0,0)) (pos.getD k (0,0,0)) < L2 then
    lab1.set (lget lab1 (lget lab1 k)) j
  else lab1

/-- The inner loop `for k in range(0, j)` of `fast_clumps`. -/
def clPass (pos : List (α × α × α)) (L2 : α) (j : ℕ) (lab : List ℕ) : List ℕ :=
  (List.range j).foldl (fun lab k => clInner pos L2 j k lab) lab

/-- The outer loop `for j in range(1, len(pos))` of `fast_clumps`, each
iteration doing `labels[j] = j` and then the inner pass, starting from the
state after `labels = [-1]*len(pos); labels[0] = 0`.  The `-1` sentinel is
modelled by `0`: it is never read (every label is assigned before it is
read), and `ℕ`-valued labels keep the index arithmetic clean. -/
def clMain (pos : List (α × α × α)) (L2 : α) : List ℕ :=
  (List.range' 1 (pos.length - 1)).foldl
    (fun lab j => clPass pos L2 j (lab.set j j))
    ((List.replicate pos.length 0).set 0 0)

/-- The final resolution pass
`for j in range(len(pos)): labels[j] = labels[labels[j]]` (sequential, in
increasing index order, over the array produced by the main loop). -/
def clResolve (lab : List ℕ) : List ℕ :=
  (List.range lab.length).foldl (fun lab j => lab.set j (lget lab (lget lab j))) lab

/-- `fast_clumps(pos, L)` from `Analysis/bound_mass.py`.  `none` models the
two failure modes: the `assert L >= 0` (AssertionError) and the write
`labels[0] = 0`, which raises IndexError on an empty position list. -/
def fast_clumps (pos : List (α × α × α)) (L : α) : Option (List ℕ) :=
  if L < 0 then none
  else if pos.length = 0 then none
  else some (clResolve (clMain pos (L ^ 2)))

end FastClumps

/-- Insert a value into a sorted list of naturals (helper for `npUnique`). -/
def insertSorted (x : ℕ) : List ℕ → List ℕ
  | [] => [x]
  | y :: ys => if x ≤ y then x :: y :: ys else y :: insertSorted x ys

/-- `np.unique`: the sorted list of distinct values of `labels`
(insertion sort, then removal of duplicates). -/
def npUnique (labels : List ℕ) : List ℕ :=
  (labels.foldr insertSorted []).dedup

section FastClumpsSpec

variable {α : Type} [LinearOrderedField α]

/-- The proximity relation tested by `fast_clumps`: squared euclidean
distance strictly below the squared threshold. -/
def Close (pos : List (α × α × α)) (L2 : α) (a b : ℕ) : Prop :=
  d2 (pos.getD a (0,0,0)) (pos.getD b (0,0,0)) < L2

/-- The set of (unordered, loop-free) close pairs the main loop of
`fast_clumps` has already processed when it is about to run inner index
`k` of outer index `J`: pairs with both members below `J`, and pairs
consisting of `J` and an inner index below `k`. -/
def EdgesUpto (pos : List (α × α × α)) (L2 : α) (J k : ℕ) (a b : ℕ) : Prop :=
  Close pos L2 a b ∧ a ≠ b ∧ (max a b < J ∨ (max a b = J ∧ min a b < k))

end FastClumpsSpec

/-- The class representative of index `i` in a label array: three parent
hops (under the loop invariants below, three hops always reach the root). -/
def rt (lab : List ℕ) (i : ℕ) : ℕ := lget lab (lget lab (lget lab i))

/-- The loop invariant of `fast_clumps`, holding throughout the treatment
of outer index `J` on an `n`-particle cloud.  `E` is the ghost relation of
processed close pairs.  Parent pointers never decrease and never exceed
`J`; every index reaches a root (a fixed point of the label array) in at
most three hops, the third hop landing either on the root reached in two
hops or on the current outer index `J`; and two indices have equal
representatives exactly when they are joined by the processed pairs. -/
structure ClInv (n J : ℕ) (E : ℕ → ℕ → Prop) (lab : List ℕ) : Prop where
  len : lab.length = n
  Jlt : J < n
  top : lget lab J = J
  lb : ∀ i, i ≤ J → i ≤ lget lab i
  ub : ∀ i, i ≤ J → lget lab i ≤ J
  dep : ∀ i, i ≤ J →
    lget lab (lget lab (lget lab i)) = lget lab (lget lab i) ∨
    lget lab (lget lab (lget lab i)) = J
  ghost : ∀ a b, a ≤ J → b ≤ J → (rt lab a = rt lab b ↔ Relation.EqvGen E a b)

/-- `ClInv` strengthened with what holds for inner indices already
processed in the current outer iteration: their label is within one hop of
a root. -/
structure ClMid (n J k : ℕ) (E : ℕ → ℕ → Prop) (lab : List ℕ)
    extends ClInv n J E lab : Prop where
  proc : ∀ i, i < k → lget lab (lget lab i) = lget lab i ∨ lget lab (lget lab i) = J

/-- The state at the end of a full outer iteration `J`: every index is
within two hops of its root. -/
structure ClEnd (n J : ℕ) (E : ℕ → ℕ → Prop) (lab : List ℕ)
    extends ClInv n J E lab : Prop where
  dep2 : ∀ i, i ≤ J →
    lget lab (lget lab (lget lab i)) = lget lab (lget lab i)

/-- Claim-side chain relation for `fast_clumps` over the reals: `a` and
`b` are indices of cloud particles whose euclidean distance is strictly
less than the threshold `L`. -/
noncomputable def ChainRel (pos : List R3) (L : ℝ) (a b : ℕ) : Prop :=
  a < pos.length ∧ b < pos.length ∧
    Real.sqrt (d2 (pos.getD a (0,0,0)) (pos.getD b (0,0,0))) < L

/-- Boolean-mask selection `xs[mask]` of numpy. -/
def maskListP {β : Type} (xs : List β) (mask : List Bool) : List β :=
  ((xs.zip mask).filter (fun p => p.2)).map (fun p => p.1)

/-- `np.argmax`: index of the first maximum of a list (numpy convention:
later entries replace the current best only when strictly larger). -/
noncomputable def npArgmax (xs : List ℝ) : ℕ :=
  (List.range xs.length).foldl (fun b i => if xs.getD b 0 < xs.getD i 0 then i else b) 0

/-- `sum(m[labels == c])`: total mass carried by class label `c`. -/
noncomputable def classMass (labels : List ℕ) (m : List ℝ) (c : ℕ) : ℝ :=
  (maskListP m (labels.map (fun l => l == c))).sum

/-- Mass-weighted sum of one coordinate (`np.dot(POS.T, M)` component). -/
noncomputable def wsum (xs ws : List ℝ) : ℝ :=
  ((xs.zip ws).map (fun p => p.1 * p.2)).sum

/-- `_bm_naor2(pos, vel, m, length_scale, units)` from
`Analysis/bound_mass.py`.  The assert block is modelled as in `bound_mass`
(the `pos.ndim == 2` assert rejects an empty cloud, since `np.array([])`
is 1-dimensional).  `R_com`/`V_com` are computed and, exactly as in the
source, never used.  The final loop tests, for every particle outside the
largest geometric clump, `U + K < 0` with `U = -G*M_clump/|pos[k]|`
(distance from the coordinate origin) and `K = |vel[k]|^2`, accumulating
the bound mass and membership flags. -/
noncomputable def _bm_naor2 (pos vel : List R3) (m : List ℝ)
    (length_scale : ℝ) (units : R3) : Except PyErr (ℝ × List Bool) :=
  if ¬ ((∀ x ∈ m, 0 < x) ∧ 0 < length_scale ∧ 0 < units.1 ∧ 0 < units.2.1 ∧
        0 < units.2.2 ∧ pos.length = vel.length ∧ vel.length = m.length ∧
        pos.length ≠ 0) then
    .error .assertionError
  else
    match fast_clumps pos length_scale with
    | none => .error .assertionError
    | some labels =>
      let c_labels := npUnique labels
      let c_masses := c_labels.map (fun c => classMass labels m c)
      let c_major_label := c_labels.getD (npArgmax c_masses) 0
      let cmask := labels.map (fun l => l == c_major_label)
      let POS := maskListP pos cmask
      let VEL := maskListP vel cmask
      let M := maskListP m cmask
      let R_com : R3 := (wsum (POS.map (·.1)) M / M.sum,
                         wsum (POS.map (·.2.1)) M / M.sum,
                         wsum (POS.map (·.2.2)) M / M.sum)
      let V_com : R3 := (wsum (VEL.map (·.1)) M / M.sum,
                         wsum (VEL.map (·.2.1)) M / M.sum,
                         wsum (VEL.map (·.2.2)) M / M.sum)
      let M_bound0 := M.sum
      let G := bigG units
      let GM := G * M_bound0
      .ok ((List.range pos.length).foldl
        (fun (st : ℝ × List Bool) k =>
          if st.2.getD k false then st
          else
            let U := -GM / Real.sqrt (dot3 (pos.getD k (0,0,0)) (pos.getD k (0,0,0)))
            let K := dot3 (vel.getD k (0,0,0)) (vel.getD k (0,0,0))
            if U + K < 0 then (st.1 + m.getD k 0, st.2.set k true) else st)
        (M_bound0, cmask))

/-- Euclidean distance between particles `i` and `j` of the coordinate
arrays `x`, `y`, `z` (the quantity `dr` of `_potential`). -/
noncomputable def dist3 (x y z : List ℝ) (i j : ℕ) : ℝ :=
  Real.sqrt ((x.getD i 0 - x.getD j 0) * (x.getD i 0 - x.getD j 0) +
             (y.getD i 0 - y.getD j 0) * (y.getD i 0 - y.getD j 0) +
             (z.getD i 0 - z.getD j 0) * (z.getD i 0 - z.getD j 0))

/-- The per-particle potential as the claim words it: the sum restricted
to masked *pairs*, i.e. both endpoints selected by the mask. -/
noncomputable def specPotentialMaskedPairs (x y z m : List ℝ) (msk : List Bool)
    (i : ℕ) : ℝ :=
  -(∑ j ∈ Finset.range x.length,
      if j ≠ i ∧ msk.getD i false ∧ msk.getD j false
      then m.getD j 0 / dist3 x y z i j else 0)

/-- The sum of the masses of the particles marked true by a membership
vector (the claimed relation between the bound-mass scalar and the
membership vector). -/
noncomputable def boundSum (m : List ℝ) (mem : List Bool) : ℝ :=
  ∑ i ∈ Finset.range mem.length, if mem.getD i false then m.getD i 0 else 0

/-- A concrete three-particle cloud, far from the coordinate origin:
particles 0 and 1 are within one length unit of each other, particle 2
sits 10 length units from particle 0. -/
noncomputable def naor2Pos : List R3 := [(1000000,0,0),(1000000,1,0),(1000010,0,0)]

/-- Velocities for `naor2Pos`: the clump is at rest, particle 2 moves
slowly (speed 1/10). -/
noncomputable def naor2Vel : List R3 := [(0,0,0),(0,0,0),(1/10,0,0)]

/-- Unit masses for the cloud `naor2Pos`. -/
noncomputable def naor2M : List ℝ := [1,1,1]

/-- A unit triple chosen so that the rescaled gravitational constant of
`_bm_naor2` is exactly `1`:
`6.67384e-11 * 1^(-3) * (10^16/667384) * 1^2 = 1`. -/
noncomputable def naor2U : R3 := (1, 10 ^ 16 / 667384, 1)

/-! ## List access helper lemmas -/

theorem lget_set_eq (lab : List ℕ) (i v : ℕ) (h : i < lab.length) :
    lget (lab.set i v) i = v := by
  simp [lget, List.getD, List.getElem?_set_self, h]

theorem lget_set_ne (lab : List ℕ) {i j : ℕ} (v : ℕ) (h : j ≠ i) :
    lget (lab.set i v) j = lget lab j := by
  simp [lget, List.getD, List.getElem?_set_ne (Ne.symm h)]

theorem lset_self (lab : List ℕ) (i : ℕ) : lab.set i (lget lab i) = lab := by
  apply List.ext_getElem?
  intro j
  by_cases hj : j = i
  · subst hj
    by_cases hi : j < lab.length
    · simp [List.getElem?_set_self, lget, List.getD, hi, List.getElem?_eq_getElem hi]
    · simp [List.set_eq_of_length_le (Nat.le_of_not_lt hi)]
  · simp [List.getElem?_set_ne (Ne.symm hj)]

theorem lget_oob (lab : List ℕ) {i : ℕ} (h : lab.length ≤ i) : lget lab i = 0 := by
  simp [lget, List.getD, List.getElem?_eq_none h]

/-! ## Equivalence-closure helper lemmas -/

theorem eqvGen_congr {r s : ℕ → ℕ → Prop} (h : ∀ a b, r a b ↔ s a b) {a b : ℕ} :
    Relation.EqvGen r a b ↔ Relation.EqvGen s a b :=
  ⟨Relation.EqvGen.mono (fun x y => (h x y).mp),
   Relation.EqvGen.mono (fun x y => (h x y).mpr)⟩

theorem eqvGen_support {r : ℕ → ℕ → Prop} {P : ℕ → Prop}
    (hr : ∀ a b, r a b → P a ∧ P b) {a b : ℕ} (h : Relation.EqvGen r a b) :
    a = b ∨ (P a ∧ P b) := by
  induction h with
  | rel x y hxy => exact Or.inr (hr x y hxy)
  | refl x => exact Or.inl rfl
  | symm x y hxy ih =>
      rcases ih with h | h
      · exact Or.inl h.symm
      · exact Or.inr ⟨h.2, h.1⟩
  | trans x y z hxy hyz ih1 ih2 =>
      rcases ih1 with h1 | h1
      · rwa [h1]
      · rcases ih2 with h2 | h2
        · rw [← h2]; exact Or.inr h1
        · exact Or.inr ⟨h1.1, h2.2⟩

theorem eqvGen_sup_collapse {r : ℕ → ℕ → Prop} {k J : ℕ}
    (hkJ : Relation.EqvGen r k J) {a b : ℕ}
    (h : Relation.EqvGen (fun x y => r x y ∨ ((x = k ∧ y = J) ∨ (x = J ∧ y = k))) a b) :
    Relation.EqvGen r a b := by
  induction h with
  | rel x y hxy =>
      rcases hxy with h | ⟨rfl, rfl⟩ | ⟨rfl, rfl⟩
      · exact Relation.EqvGen.rel _ _ h
      · exact hkJ
      · exact hkJ.symm _ _
  | refl x => exact Relation.EqvGen.refl x
  | symm x y hxy ih => exact ih.symm _ _
  | trans x y z hxy hyz ih1 ih2 => exact ih1.trans _ _ _ ih2

theorem eqvGen_sup_iff {r : ℕ → ℕ → Prop} {k J : ℕ} {a b : ℕ} :
    Relation.EqvGen (fun x y => r x y ∨ ((x = k ∧ y = J) ∨ (x = J ∧ y = k))) a b ↔
      (Relation.EqvGen r a b ∨
       (Relation.EqvGen r a k ∧ Relation.EqvGen r J b) ∨
       (Relation.EqvGen r a J ∧ Relation.EqvGen r k b)) := by
  constructor
  · intro h
    induction h with
    | rel x y hxy =>
        rcases hxy with h | ⟨rfl, rfl⟩ | ⟨rfl, rfl⟩
        · exact Or.inl (Relation.EqvGen.rel _ _ h)
        · exact Or.inr (Or.inl ⟨Relation.EqvGen.refl _, Relation.EqvGen.refl _⟩)
        · exact Or.inr (Or.inr ⟨Relation.EqvGen.refl _, Relation.EqvGen.refl _⟩)
    | refl x => exact Or.inl (Relation.EqvGen.refl x)
    | symm x y hxy ih =>
        rcases ih with h | ⟨h1, h2⟩ | ⟨h1, h2⟩
        · exact Or.inl (h.symm _ _)
        · exact Or.inr (Or.inr ⟨h2.symm _ _, h1.symm _ _⟩)
        · exact Or.inr (Or.inl ⟨h2.symm _ _, h1.symm _ _⟩)
    | trans x y z hxy hyz ih1 ih2 =>
        rcases ih1 with h1 | ⟨h1, h1'⟩ | ⟨h1, h1'⟩
        · rcases ih2 with h2 | ⟨h2, h2'⟩ | ⟨h2, h2'⟩
          · exact Or.inl (h1.trans _ _ _ h2)
          · exact Or.inr (Or.inl ⟨h1.trans _ _ _ h2, h2'⟩)
          · exact Or.inr (Or.inr ⟨h1.trans _ _ _ h2, h2'⟩)
        · rcases ih2 with h2 | ⟨h2, h2'⟩ | ⟨h2, h2'⟩
          · exact Or.inr (Or.inl ⟨h1, h1'.trans _ _ _ h2⟩)
          · exact Or.inr (Or.inl ⟨h1, h2'⟩)
          · exact Or.inl (h1.trans _ _ _ h2')
        · rcases ih2 with h2 | ⟨h2, h2'⟩ | ⟨h2, h2'⟩
          · exact Or.inr (Or.inr ⟨h1, h1'.trans _ _ _ h2⟩)
          · exact Or.inl (h1.trans _ _ _ h2')
          · exact Or.inr (Or.inr ⟨h1, h2'⟩)
  · intro h
    rcases h with h | ⟨h1, h2⟩ | ⟨h1, h2⟩
    · exact h.mono (fun x y hxy => Or.inl hxy)
    · exact ((h1.mono (fun x y hxy => Or.inl hxy)).trans _ _ _
        (Relation.EqvGen.rel k J (by exact Or.inr (Or.inl ⟨rfl, rfl⟩)))).trans _ _ _
        (h2.mono (fun x y hxy => Or.inl hxy))
    · exact ((h1.mono (fun x y hxy => Or.inl hxy)).trans _ _ _
        (Relation.EqvGen.rel J k (by exact Or.inr (Or.inr ⟨rfl, rfl⟩)))).trans _ _ _
        (h2.mono (fun x y hxy => Or.inl hxy))

/-! ## Processed-edge bookkeeping -/

section FastClumpsProofs

variable {α : Type} [LinearOrderedField α] [DecidableRel ((· < ·) : α → α → Prop)]
variable {pos : List (α × α × α)} {L2 : α}

theorem d2_comm (p q : α × α × α) : d2 p q = d2 q p := by
  unfold d2; ring

theorem close_symm {a b : ℕ} : Close pos L2 a b ↔ Close pos L2 b a := by
  unfold Close; rw [d2_comm]

theorem edges_bound {J k a b : ℕ} (hk : k ≤ J) (h : EdgesUpto pos L2 J k a b) :
    a ≤ J ∧ b ≤ J := by
  rcases h with ⟨-, -, h⟩
  omega

theorem edges_succ {J k : ℕ} (hk : k < J) (a b : ℕ) :
    EdgesUpto pos L2 J (k+1) a b ↔
      (EdgesUpto pos L2 J k a b ∨
       (Close pos L2 J k ∧ ((a = k ∧ b = J) ∨ (a = J ∧ b = k)))) := by
  unfold EdgesUpto
  constructor
  · rintro ⟨hc, hne, hr⟩
    by_cases hm : max a b < J ∨ (max a b = J ∧ min a b < k)
    · exact Or.inl ⟨hc, hne, hm⟩
    · have hab : (a = k ∧ b = J) ∨ (a = J ∧ b = k) := by omega
      refine Or.inr ⟨?_, hab⟩
      rcases hab with ⟨rfl, rfl⟩ | ⟨rfl, rfl⟩
      · exact close_symm.mp hc
      · exact hc
  · rintro (⟨hc, hne, hr⟩ | ⟨hc, hab⟩)
    · exact ⟨hc, hne, by omega⟩
    · rcases hab with ⟨rfl, rfl⟩ | ⟨rfl, rfl⟩
      · exact ⟨close_symm.mp hc, by omega, by omega⟩
      · exact ⟨hc, by omega, by omega⟩

theorem edges_shift {J : ℕ} (a b : ℕ) :
    EdgesUpto pos L2 (J+1) 0 a b ↔ EdgesUpto pos L2 J J a b := by
  unfold EdgesUpto
  constructor
  · rintro ⟨hc, hne, hr⟩
    exact ⟨hc, hne, by omega⟩
  · rintro ⟨hc, hne, hr⟩
    exact ⟨hc, hne, by omega⟩

end FastClumpsProofs

/-! ## Consequences of the loop invariant -/

theorem ClInv.klt {n J E lab} (inv : ClInv n J E lab) {i : ℕ} (hi : i ≤ J) :
    i < lab.length := by
  rw [inv.len]; exact Nat.lt_of_le_of_lt hi inv.Jlt

theorem ClInv.ub2 {n J E lab} (inv : ClInv n J E lab) {i : ℕ} (hi : i ≤ J) :
    lget lab (lget lab i) ≤ J :=
  inv.ub _ (inv.ub _ hi)

theorem ClInv.ub3 {n J E lab} (inv : ClInv n J E lab) {i : ℕ} (hi : i ≤ J) :
    lget lab (lget lab (lget lab i)) ≤ J :=
  inv.ub _ (inv.ub2 hi)

theorem ClInv.self_of_le {n J E lab} (inv : ClInv n J E lab) {i : ℕ} (hi : i ≤ J)
    (h : lget lab i ≤ i) : lget lab i = i :=
  Nat.le_antisymm h (inv.lb i hi)

theorem ClInv.rt_root {n J E lab} (inv : ClInv n J E lab) {i : ℕ} (hi : i ≤ J) :
    lget lab (rt lab i) = rt lab i := by
  unfold rt
  rcases inv.dep i hi with h | h
  · rw [h, h]
  · rw [h, inv.top]

theorem ClInv.rt_le {n J E lab} (inv : ClInv n J E lab) {i : ℕ} (hi : i ≤ J) :
    rt lab i ≤ J :=
  inv.ub3 hi

/-! ## The resolution (path-halving) step `labels[k] = labels[labels[k]]` -/

section HalfStep

variable {n J k : ℕ} {E : ℕ → ℕ → Prop} {lab : List ℕ}

theorem half_lget_k (inv : ClInv n J E lab) (hk : k ≤ J) :
    lget (lab.set k (lget lab (lget lab k))) k = lget lab (lget lab k) :=
  lget_set_eq _ _ _ (inv.klt hk)

/-- After the halving step, two hops from any `x ≤ J` land on what was two
or three hops from `x` before the step. -/
theorem half_sq (inv : ClInv n J E lab) (hk : k < J) {x : ℕ} (hx : x ≤ J) :
    lget (lab.set k (lget lab (lget lab k))) (lget (lab.set k (lget lab (lget lab k))) x) =
      lget lab (lget lab x) ∨
    lget (lab.set k (lget lab (lget lab k))) (lget (lab.set k (lget lab (lget lab k))) x) =
      lget lab (lget lab (lget lab x)) := by
  have hSk : lget (lab.set k (lget lab (lget lab k))) k = lget lab (lget lab k) :=
    half_lget_k inv (Nat.le_of_lt hk)
  by_cases hxk : x = k
  · subst hxk
    rw [hSk]
    by_cases h2 : lget lab (lget lab x) = x
    · left
      rw [h2]
      exact lget_set_eq _ _ _ (inv.klt hx)
    · right
      rw [lget_set_ne _ _ h2]
  · rw [lget_set_ne _ _ hxk]
    by_cases hak : lget lab x = k
    · right
      rw [hak, hSk]
    · left
      rw [lget_set_ne _ _ hak]

/-- The halving step does not change any representative. -/
theorem half_rt (inv : ClInv n J E lab) (hk : k < J) {x : ℕ} (hx : x ≤ J) :
    rt (lab.set k (lget lab (lget lab k))) x = rt lab x := by
  have hSk : lget (lab.set k (lget lab (lget lab k))) k = lget lab (lget lab k) :=
    half_lget_k inv (Nat.le_of_lt hk)
  have hsq := half_sq inv hk hx
  unfold rt
  rcases hsq with h | h
  · rw [h]
    by_cases hbk : lget lab (lget lab x) = k
    · rw [hbk, hSk]
      rcases inv.dep x hx with hd | hd
      · rw [hbk] at hd
        rw [hd]
        exact hd
      · rw [hbk] at hd
        rw [hd, inv.top]
    · rw [lget_set_ne _ _ hbk]
  · rw [h]
    by_cases hck : lget lab (lget lab (lget lab x)) = k
    · rcases inv.dep x hx with hd | hd
      · have hl2 : lget lab (lget lab x) = k := by rw [← hd]; exact hck
        have hlk : lget lab k = k := by
          conv_lhs => rw [← hl2]
          exact hck
        rw [hck, hSk, hlk]
        exact hlk
      · rw [hck] at hd
        omega
    · rw [lget_set_ne _ _ hck]
      rcases inv.dep x hx with hd | hd
      · rw [hd]
        exact hd
      · rw [hd, inv.top]

theorem half_dep (inv : ClInv n J E lab) (hk : k < J) {i : ℕ} (hi : i ≤ J) :
    lget (lab.set k (lget lab (lget lab k)))
        (lget (lab.set k (lget lab (lget lab k)))
          (lget (lab.set k (lget lab (lget lab k))) i)) =
      lget (lab.set k (lget lab (lget lab k)))
        (lget (lab.set k (lget lab (lget lab k))) i) ∨
    lget (lab.set k (lget lab (lget lab k)))
        (lget (lab.set k (lget lab (lget lab k)))
          (lget (lab.set k (lget lab (lget lab k))) i)) = J := by
  have hSk : lget (lab.set k (lget lab (lget lab k))) k = lget lab (lget lab k) :=
    half_lget_k inv (Nat.le_of_lt hk)
  rcases half_sq inv hk hi with h | h
  · rw [h]
    by_cases hbk : lget lab (lget lab i) = k
    · rw [hbk, hSk]
      have hlk : lget lab k = lget lab (lget lab (lget lab i)) := by rw [hbk]
      rcases inv.dep i hi with hd | hd
      · rw [hbk] at hd
        left
        rw [hd]
        exact hd
      · rw [hbk] at hd
        right
        rw [hd, inv.top]
    · rw [lget_set_ne _ _ hbk]
      rcases inv.dep i hi with hd | hd
      · left
        exact hd
      · right
        exact hd
  · rw [h]
    by_cases hck : lget lab (lget lab (lget lab i)) = k
    · rcases inv.dep i hi with hd | hd
      · have hl2 : lget lab (lget lab i) = k := by rw [← hd]; exact hck
        have hlk : lget lab k = k := by
          conv_lhs => rw [← hl2]
          exact hck
        left
        rw [hck, hSk, hlk]
        exact hlk
      · rw [hck] at hd
        omega
    · rw [lget_set_ne _ _ hck]
      rcases inv.dep i hi with hd | hd
      · left
        rw [hd]
        exact hd
      · right
        rw [hd, inv.top]

theorem half_lb (inv : ClInv n J E lab) (hk : k < J) {i : ℕ} (hi : i ≤ J) :
    i ≤ lget (lab.set k (lget lab (lget lab k))) i := by
  by_cases hik : i = k
  · subst hik
    rw [half_lget_k inv (Nat.le_of_lt hk)]
    exact Nat.le_trans (inv.lb i hi) (inv.lb _ (inv.ub i hi))
  · rw [lget_set_ne _ _ hik]
    exact inv.lb i hi

theorem half_ub (inv : ClInv n J E lab) (hk : k < J) {i : ℕ} (hi : i ≤ J) :
    lget (lab.set k (lget lab (lget lab k))) i ≤ J := by
  by_cases hik : i = k
  · subst hik
    rw [half_lget_k inv (Nat.le_of_lt hk)]
    exact inv.ub2 hi
  · rw [lget_set_ne _ _ hik]
    exact inv.ub i hi

theorem half_proc (inv : ClMid n J k E lab) (hk : k < J) {i : ℕ} (hi : i < k) :
    lget (lab.set k (lget lab (lget lab k)))
        (lget (lab.set k (lget lab (lget lab k))) i) =
      lget (lab.set k (lget lab (lget lab k))) i ∨
    lget (lab.set k (lget lab (lget lab k)))
        (lget (lab.set k (lget lab (lget lab k))) i) = J := by
  have hSk : lget (lab.set k (lget lab (lget lab k))) k = lget lab (lget lab k) :=
    half_lget_k inv.toClInv (Nat.le_of_lt hk)
  have hik : i ≠ k := Nat.ne_of_lt hi
  rw [lget_set_ne _ _ hik]
  by_cases hak : lget lab i = k
  · rw [hak, hSk]
    rcases inv.proc i hi with hp | hp
    · rw [hak] at hp
      left
      rw [hp]
      exact hp
    · rw [hak] at hp
      right
      rw [hp, inv.top]
  · rw [lget_set_ne _ _ hak]
    rcases inv.proc i hi with hp | hp
    · left
      exact hp
    · right
      exact hp

theorem half_slotk (inv : ClInv n J E lab) (hk : k < J) :
    lget (lab.set k (lget lab (lget lab k)))
        (lget (lab.set k (lget lab (lget lab k))) k) =
      lget (lab.set k (lget lab (lget lab k))) k ∨
    lget (lab.set k (lget lab (lget lab k)))
        (lget (lab.set k (lget lab (lget lab k))) k) = J := by
  have hSk : lget (lab.set k (lget lab (lget lab k))) k = lget lab (lget lab k) :=
    half_lget_k inv (Nat.le_of_lt hk)
  rw [hSk]
  by_cases h2 : lget lab (lget lab k) = k
  · left
    rw [h2]
    exact lget_set_eq _ _ _ (inv.klt (Nat.le_of_lt hk))
  · rw [lget_set_ne _ _ h2]
    rcases inv.dep k (Nat.le_of_lt hk) with hd | hd
    · left
      rw [hd]
    · right
      exact hd

/-- The halving step preserves the whole mid-iteration invariant. -/
theorem half_mid (inv : ClMid n J k E lab) (hk : k < J) :
    ClMid n J k E (lab.set k (lget lab (lget lab k))) := by
  refine ⟨⟨?_, inv.Jlt, ?_, ?_, ?_, ?_, ?_⟩, ?_⟩
  · rw [List.length_set]; exact inv.len
  · rw [lget_set_ne _ _ (by omega : J ≠ k)]; exact inv.top
  · exact fun i hi => half_lb inv.toClInv hk hi
  · exact fun i hi => half_ub inv.toClInv hk hi
  · exact fun i hi => half_dep inv.toClInv hk hi
  · intro a b ha hb
    rw [half_rt inv.toClInv hk ha, half_rt inv.toClInv hk hb]
    exact inv.ghost a b ha hb
  · exact fun i hi => half_proc inv hk hi

end HalfStep

/-! ## The union step `labels[labels[labels[k]]] = j` -/

section UnionStep

variable {n J k : ℕ} {E : ℕ → ℕ → Prop} {lab : List ℕ}

/-- On a state where inner index `k` is already within one hop of a root
(the situation right after the halving step), the union step redirects the
root of `k`'s class to `J` and merges the ghost classes of `k` and `J`. -/
theorem union_mid (inv : ClMid n J k E lab) (hk : k < J)
    (hslot : lget lab (lget lab k) = lget lab k ∨ lget lab (lget lab k) = J) :
    ClMid n J (k+1)
      (fun a b => E a b ∨ ((a = k ∧ b = J) ∨ (a = J ∧ b = k)))
      (lab.set (lget lab (lget lab k)) J) := by
  have hkJ : k ≤ J := Nat.le_of_lt hk
  set t := lget lab (lget lab k) with hT
  have ht_le : t ≤ J := inv.ub2 hkJ
  have ht_root : lget lab t = t := by
    rcases hslot with h | h
    · rw [h, ← hT]
      exact h
    · rw [h]
      rw [inv.top, ← h]
  have hrtk : rt lab k = t := by
    unfold rt
    rw [← hT]
    exact ht_root
  have hrtJ : rt lab J = J := by
    unfold rt
    rw [inv.top, inv.top, inv.top]
  by_cases hTJ : t = J
  · -- degenerate union: the write stores the value already present
    have hlab : lab.set t J = lab := by
      rw [hTJ]
      have hself := lset_self lab J
      rwa [inv.top] at hself
    rw [hlab]
    have hEkJ : Relation.EqvGen E k J := by
      rw [← inv.ghost k J hkJ le_rfl, hrtk, hrtJ]
      exact hTJ
    refine ⟨⟨inv.len, inv.Jlt, inv.top, inv.lb, inv.ub, inv.dep, ?_⟩, ?_⟩
    · intro a b ha hb
      rw [inv.ghost a b ha hb]
      constructor
      · exact fun h => Relation.EqvGen.mono (fun x y hxy => Or.inl hxy) h
      · exact fun h => eqvGen_sup_collapse hEkJ h
    · intro i hi
      rcases Nat.lt_succ_iff_lt_or_eq.mp hi with h | h
      · exact inv.proc i h
      · subst h
        rw [← hT]
        exact hslot
  · -- genuine union: `t` is the root of `k`'s class and is redirected to `J`
    have htlen : t < lab.length := inv.klt ht_le
    have hl2t : lget (lab.set t J) t = J := lget_set_eq _ _ _ htlen
    have hl2o : ∀ x, x ≠ t → lget (lab.set t J) x = lget lab x :=
      fun x hx => lget_set_ne _ _ hx
    have hl2J : lget (lab.set t J) J = J := by
      rw [hl2o J (fun hc => hTJ hc.symm)]
      exact inv.top
    have hroot2 : lget lab (lget lab t) = t := by
      rw [ht_root]
      exact ht_root
    have hroot3 : lget lab (lget lab (lget lab t)) = t := by
      rw [ht_root, ht_root]
      exact ht_root
    have hrt2 : ∀ x, x ≤ J → rt (lab.set t J) x = if rt lab x = t then J else rt lab x := by
      intro x hx
      unfold rt
      by_cases hxt : x = t
      · rw [hxt, hl2t, hl2J, hl2J, if_pos hroot3]
      · rw [hl2o x hxt]
        by_cases hat : lget lab x = t
        · rw [hat, hl2t, hl2J, if_pos hroot2]
        · rw [hl2o _ hat]
          by_cases hbt : lget lab (lget lab x) = t
          · rw [hbt, hl2t, if_pos ht_root]
          · rw [hl2o _ hbt]
            have hne : ¬ lget lab (lget lab (lget lab x)) = t := by
              intro hcon
              rcases inv.dep x hx with hd | hd
              · rw [hd] at hcon
                exact hbt hcon
              · rw [hd] at hcon
                exact hTJ hcon.symm
            rw [if_neg hne]
    refine ⟨⟨?_, inv.Jlt, hl2J, ?_, ?_, ?_, ?_⟩, ?_⟩
    · rw [List.length_set]
      exact inv.len
    · intro i hi
      by_cases hit : i = t
      · rw [hit, hl2t]
        exact ht_le
      · rw [hl2o i hit]
        exact inv.lb i hi
    · intro i hi
      by_cases hit : i = t
      · rw [hit, hl2t]
      · rw [hl2o i hit]
        exact inv.ub i hi
    · intro i hi
      by_cases hit : i = t
      · left
        rw [hit, hl2t, hl2J, hl2J]
      · rw [hl2o i hit]
        by_cases hat : lget lab i = t
        · left
          rw [hat, hl2t, hl2J]
        · rw [hl2o _ hat]
          by_cases hbt : lget lab (lget lab i) = t
          · right
            rw [hbt, hl2t]
          · rw [hl2o _ hbt]
            exact inv.dep i hi
    · intro a b ha hb
      rw [hrt2 a ha, hrt2 b hb, eqvGen_sup_iff,
          ← inv.ghost a b ha hb, ← inv.ghost a k ha hkJ, ← inv.ghost J b le_rfl hb,
          ← inv.ghost a J ha le_rfl, ← inv.ghost k b hkJ hb, hrtk, hrtJ]
      split_ifs <;> omega
    · intro i hi
      rcases Nat.lt_succ_iff_lt_or_eq.mp hi with h | h
      · have hit : i ≠ t := by
          have hkt : k ≤ t := by
            rw [hT]
            exact Nat.le_trans (inv.lb k hkJ) (inv.lb _ (inv.ub k hkJ))
          omega
        rw [hl2o i hit]
        by_cases hat : lget lab i = t
        · right
          rw [hat, hl2t]
        · rw [hl2o _ hat]
          rcases inv.proc i h with hp | hp
          · left
            exact hp
          · right
            exact hp
      · subst h
        by_cases hkt : i = t
        · left
          rw [hkt, hl2t, hl2J]
        · rw [hl2o _ hkt]
          rcases hslot with hs | hs
          · rw [← hs, hl2t]
            exact Or.inr rfl
          · exact absurd hs hTJ

end UnionStep

/-! ## One full inner-loop body, and the inner and outer loops -/

section LoopInduction

variable {α : Type} [LinearOrderedField α] [DecidableRel ((· < ·) : α → α → Prop)]
variable {pos : List (α × α × α)} {L2 : α}

theorem clInner_step {n J k : ℕ} {lab : List ℕ}
    (inv : ClMid n J k (EdgesUpto pos L2 J k) lab) (hk : k < J) :
    ClMid n J (k+1) (EdgesUpto pos L2 J (k+1)) (clInner pos L2 J k lab) := by
  have hmid := half_mid inv hk
  have hslot := half_slotk inv.toClInv hk
  unfold clInner
  by_cases hc : d2 (pos.getD J (0,0,0)) (pos.getD k (0,0,0)) < L2
  · rw [if_pos hc]
    have hu := union_mid hmid hk hslot
    have hpt : ∀ a b,
        (EdgesUpto pos L2 J k a b ∨ ((a = k ∧ b = J) ∨ (a = J ∧ b = k))) ↔
          EdgesUpto pos L2 J (k+1) a b := by
      intro a b
      rw [edges_succ hk]
      constructor
      · rintro (h | h)
        · exact Or.inl h
        · exact Or.inr ⟨hc, h⟩
      · rintro (h | ⟨-, h⟩)
        · exact Or.inl h
        · exact Or.inr h
    refine ⟨⟨hu.len, hu.Jlt, hu.top, hu.lb, hu.ub, hu.dep, ?_⟩, hu.proc⟩
    intro a b ha hb
    rw [hu.ghost a b ha hb]
    exact eqvGen_congr hpt
  · rw [if_neg hc]
    have hpt : ∀ a b, EdgesUpto pos L2 J k a b ↔ EdgesUpto pos L2 J (k+1) a b := by
      intro a b
      rw [edges_succ hk]
      constructor
      · exact fun h => Or.inl h
      · rintro (h | ⟨hcl, -⟩)
        · exact h
        · exact absurd hcl hc
    refine ⟨⟨hmid.len, hmid.Jlt, hmid.top, hmid.lb, hmid.ub, hmid.dep, ?_⟩, ?_⟩
    · intro a b ha hb
      rw [hmid.ghost a b ha hb]
      exact eqvGen_congr hpt
    · intro i hi
      rcases Nat.lt_succ_iff_lt_or_eq.mp hi with h | h
      · exact hmid.proc i h
      · subst h
        exact hslot

theorem clPass_inv {n J : ℕ} {lab : List ℕ}
    (inv : ClMid n J 0 (EdgesUpto pos L2 J 0) lab) :
    ClMid n J J (EdgesUpto pos L2 J J) (clPass pos L2 J lab) := by
  unfold clPass
  suffices h : ∀ m, m ≤ J → ClMid n J m (EdgesUpto pos L2 J m)
      ((List.range m).foldl (fun lab k => clInner pos L2 J k lab) lab) from h J le_rfl
  intro m hm
  induction m with
  | zero => simpa using inv
  | succ p ih =>
      rw [List.range_succ, List.foldl_append, List.foldl_cons, List.foldl_nil]
      exact clInner_step (ih (Nat.le_of_succ_le hm)) (Nat.lt_of_succ_le hm)

theorem clInit_end {n : ℕ} (hn : 0 < n) :
    ClEnd n 0 (EdgesUpto pos L2 1 0) ((List.replicate n 0).set 0 0) := by
  have hrep : ∀ i, lget (List.replicate n 0) i = 0 := by
    intro i
    by_cases hi : i < n
    · simp [lget, List.getD, List.getElem?_replicate, hi]
    · simp [lget, List.getD, List.getElem?_eq_none
        (by simpa using Nat.le_of_not_lt hi : (List.replicate n 0).length ≤ i)]
  have hset : (List.replicate n 0).set 0 0 = List.replicate n 0 := by
    have hself := lset_self (List.replicate n 0) 0
    rwa [hrep 0] at hself
  rw [hset]
  refine ⟨⟨by simp, hn, hrep 0, ?_, ?_, ?_, ?_⟩, ?_⟩
  · intro i hi
    omega
  · intro i hi
    rw [hrep]
  · intro i hi
    left
    rw [hrep, hrep]
  · intro a b ha hb
    have hab : a = b := by omega
    subst hab
    exact ⟨fun _ => Relation.EqvGen.refl a, fun _ => rfl⟩
  · intro i hi
    rw [hrep, hrep]

theorem clOuter_step {n J : ℕ} {lab : List ℕ}
    (inv : ClEnd n J (EdgesUpto pos L2 (J+1) 0) lab) (hJ1 : J + 1 < n) :
    ClEnd n (J+1) (EdgesUpto pos L2 (J+2) 0)
      (clPass pos L2 (J+1) (lab.set (J+1) (J+1))) := by
  have hJn : J + 1 < lab.length := by
    rw [inv.len]
    exact hJ1
  have hg_top : lget (lab.set (J+1) (J+1)) (J+1) = J+1 := lget_set_eq _ _ _ hJn
  have hg_le : ∀ x, x ≤ J → lget (lab.set (J+1) (J+1)) x = lget lab x :=
    fun x hx => lget_set_ne _ _ (by omega)
  have hmid : ClMid n (J+1) 0 (EdgesUpto pos L2 (J+1) 0) (lab.set (J+1) (J+1)) := by
    have hrt' : ∀ x, x ≤ J → rt (lab.set (J+1) (J+1)) x = rt lab x := by
      intro x hx
      unfold rt
      rw [hg_le x hx, hg_le _ (inv.ub x hx), hg_le _ (inv.ub2 hx)]
    have hrtJ1 : rt (lab.set (J+1) (J+1)) (J+1) = J+1 := by
      unfold rt
      rw [hg_top, hg_top, hg_top]
    refine ⟨⟨?_, hJ1, hg_top, ?_, ?_, ?_, ?_⟩, ?_⟩
    · rw [List.length_set]
      exact inv.len
    · intro i hi
      by_cases hiJ : i = J+1
      · rw [hiJ, hg_top]
      · have hi' : i ≤ J := by omega
        rw [hg_le i hi']
        exact inv.lb i hi'
    · intro i hi
      by_cases hiJ : i = J+1
      · rw [hiJ, hg_top]
      · have hi' : i ≤ J := by omega
        rw [hg_le i hi']
        exact Nat.le_trans (inv.ub i hi') (by omega)
    · intro i hi
      by_cases hiJ : i = J+1
      · left
        rw [hiJ, hg_top, hg_top, hg_top]
      · have hi' : i ≤ J := by omega
        rw [hg_le i hi', hg_le _ (inv.ub i hi'), hg_le _ (inv.ub2 hi')]
        left
        exact inv.dep2 i hi'
    · intro a b ha hb
      have hbnd : ∀ x y, EdgesUpto pos L2 (J+1) 0 x y → x ≤ J ∧ y ≤ J := by
        rintro x y ⟨-, -, hr⟩
        omega
      by_cases haJ : a = J+1
      · by_cases hbJ : b = J+1
        · rw [haJ, hbJ]
          exact ⟨fun _ => Relation.EqvGen.refl _, fun _ => rfl⟩
        · have hb' : b ≤ J := by omega
          rw [haJ, hrtJ1, hrt' b hb']
          constructor
          · intro hEq
            have := ClInv.rt_le inv.toClInv hb'
            omega
          · intro hE
            rcases eqvGen_support hbnd hE with heq | hP
            · omega
            · exact absurd hP.1 (by omega)
      · by_cases hbJ : b = J+1
        · have ha' : a ≤ J := by omega
          rw [hbJ, hrtJ1, hrt' a ha']
          constructor
          · intro hEq
            have := ClInv.rt_le inv.toClInv ha'
            omega
          · intro hE
            rcases eqvGen_support hbnd hE with heq | hP
            · omega
            · exact absurd hP.2 (by omega)
        · have ha' : a ≤ J := by omega
          have hb' : b ≤ J := by omega
          rw [hrt' a ha', hrt' b hb']
          exact inv.ghost a b ha' hb'
    · intro i hi
      exact absurd hi (Nat.not_lt_zero i)
  have hpass := clPass_inv hmid
  refine ⟨⟨hpass.len, hpass.Jlt, hpass.top, hpass.lb, hpass.ub, hpass.dep, ?_⟩, ?_⟩
  · intro a b ha hb
    rw [hpass.ghost a b ha hb]
    exact eqvGen_congr (fun x y => (edges_shift (J := J+1) x y).symm)
  · intro i hi
    by_cases hiJ : i = J+1
    · rw [hiJ, hpass.top, hpass.top, hpass.top]
    · have h : i < J+1 := by omega
      rcases hpass.proc i h with hp | hp
      · rw [hp, hp]
      · rw [hp, hpass.top]

end LoopInduction

/-! ## The main loop, the final pass, and the characterisation -/

section MainLoop

variable {α : Type} [LinearOrderedField α] [DecidableRel ((· < ·) : α → α → Prop)]
variable {pos : List (α × α × α)} {L2 : α}

theorem clMain_end (h1 : 1 ≤ pos.length) :
    ClEnd pos.length (pos.length - 1) (EdgesUpto pos L2 pos.length 0) (clMain pos L2) := by
  unfold clMain
  suffices h : ∀ m, m ≤ pos.length - 1 →
      ClEnd pos.length m (EdgesUpto pos L2 (m+1) 0)
        ((List.range' 1 m).foldl (fun lab j => clPass pos L2 j (lab.set j j))
          ((List.replicate pos.length 0).set 0 0)) by
    have hmn := h (pos.length - 1) le_rfl
    rw [Nat.sub_add_cancel h1] at hmn
    exact hmn
  intro m hm
  induction m with
  | zero => simpa using clInit_end h1
  | succ p ih =>
      have hcat : List.range' 1 (p+1) = List.range' 1 p ++ [p+1] := by
        rw [List.range'_concat]
        simp [Nat.add_comm]
      rw [hcat, List.foldl_append, List.foldl_cons, List.foldl_nil]
      exact clOuter_step (ih (by omega)) (by omega)

theorem clResolve_spec {n : ℕ} {E : ℕ → ℕ → Prop} {lab : List ℕ}
    (inv : ClEnd n (n-1) E lab) (h1 : 1 ≤ n) :
    (clResolve lab).length = n ∧
    ∀ i, i < n → lget (clResolve lab) i = lget lab (lget lab i) := by
  unfold clResolve
  rw [inv.len]
  suffices h : ∀ t, t ≤ n →
      (((List.range t).foldl (fun lab j => lab.set j (lget lab (lget lab j))) lab).length = n ∧
       (∀ i, i < t →
          lget ((List.range t).foldl (fun lab j => lab.set j (lget lab (lget lab j))) lab) i =
            lget lab (lget lab i)) ∧
       (∀ i, t ≤ i →
          lget ((List.range t).foldl (fun lab j => lab.set j (lget lab (lget lab j))) lab) i =
            lget lab i)) by
    exact ⟨(h n le_rfl).1, fun i hi => (h n le_rfl).2.1 i hi⟩
  intro t ht
  induction t with
  | zero =>
      refine ⟨inv.len, ?_, ?_⟩
      · intro i hi
        exact absurd hi (Nat.not_lt_zero i)
      · intro i hi
        simp
  | succ p ih =>
      obtain ⟨ihlen, ihlow, ihhigh⟩ := ih (by omega)
      rw [List.range_succ, List.foldl_append, List.foldl_cons, List.foldl_nil]
      have hpn : p ≤ n - 1 := by omega
      have hplab : lget lab p ≤ n - 1 := inv.ub p hpn
      have hval :
          lget ((List.range p).foldl (fun lab j => lab.set j (lget lab (lget lab j))) lab)
              (lget ((List.range p).foldl (fun lab j => lab.set j (lget lab (lget lab j))) lab) p) =
            lget lab (lget lab p) := by
        rw [ihhigh p le_rfl]
        exact ihhigh (lget lab p) (inv.lb p hpn)
      refine ⟨?_, ?_, ?_⟩
      · rw [List.length_set]
        exact ihlen
      · intro i hi
        by_cases hip : i = p
        · rw [hip, lget_set_eq _ _ _ (by omega : p < _), hval]
        · rw [lget_set_ne _ _ hip]
          exact ihlow i (by omega)
      · intro i hi
        rw [lget_set_ne _ _ (by omega : i ≠ p)]
        exact ihhigh i (by omega)

end MainLoop

section Characterisation

variable {α : Type} [LinearOrderedField α] [DecidableRel ((· < ·) : α → α → Prop)]

theorem eqvGen_close_bridge (pos : List (α × α × α)) (L2 : α) {a b : ℕ} :
    Relation.EqvGen (EdgesUpto pos L2 pos.length 0) a b ↔
      Relation.EqvGen
        (fun x y => x < pos.length ∧ y < pos.length ∧ Close pos L2 x y) a b := by
  constructor
  · refine Relation.EqvGen.mono ?_
    rintro x y ⟨hc, hne, hr⟩
    exact ⟨by omega, by omega, hc⟩
  · intro h
    induction h with
    | rel x y hxy =>
        rcases hxy with ⟨hx, hy, hc⟩
        by_cases hne : x = y
        · rw [hne]
          exact Relation.EqvGen.refl y
        · exact Relation.EqvGen.rel _ _ ⟨hc, hne, by omega⟩
    | refl x => exact Relation.EqvGen.refl x
    | symm x y hxy ih => exact ih.symm _ _
    | trans x y z hxy hyz ih1 ih2 => exact ih1.trans _ _ _ ih2

/-- Master specification of `fast_clumps` on a non-empty cloud with a
non-negative threshold: it succeeds, the labelling has the cloud's length,
every label is a valid index, every label is a fixed point of the
labelling, and two indices carry equal labels exactly when they are
connected by a chain of strictly-sub-threshold squared distances. -/
theorem fast_clumps_spec (pos : List (α × α × α)) (L : α) (hL : 0 ≤ L) (h0 : pos ≠ []) :
    ∃ ls, fast_clumps pos L = some ls ∧ ls.length = pos.length ∧
      (∀ i, i < pos.length → lget ls i < pos.length) ∧
      (∀ i, i < pos.length → lget ls (lget ls i) = lget ls i) ∧
      (∀ a b, a < pos.length → b < pos.length →
        (lget ls a = lget ls b ↔
          Relation.EqvGen
            (fun x y => x < pos.length ∧ y < pos.length ∧ Close pos (L ^ 2) x y) a b)) := by
  have h1 : 1 ≤ pos.length := List.length_pos.mpr h0
  have hmain : ClEnd pos.length (pos.length - 1)
      (EdgesUpto pos (L ^ 2) pos.length 0) (clMain pos (L ^ 2)) := clMain_end h1
  have hres := clResolve_spec hmain h1
  refine ⟨clResolve (clMain pos (L ^ 2)), ?_, hres.1, ?_, ?_, ?_⟩
  · unfold fast_clumps
    rw [if_neg (not_lt.mpr hL), if_neg (by omega : ¬ pos.length = 0)]
  · intro i hi
    rw [hres.2 i hi]
    have hu := hmain.ub2 (i := i) (by omega)
    omega
  · intro i hi
    have hidx : lget (clResolve (clMain pos (L ^ 2))) i < pos.length := by
      rw [hres.2 i hi]
      have hu := hmain.ub2 (i := i) (by omega)
      omega
    rw [hres.2 _ hidx, hres.2 i hi]
    have hd := hmain.dep2 i (by omega)
    rw [hd]
    exact hd
  · intro a b ha hb
    rw [hres.2 a ha, hres.2 b hb, ← eqvGen_close_bridge pos (L ^ 2)]
    have hra : lget (clMain pos (L ^ 2)) (lget (clMain pos (L ^ 2)) a) =
        rt (clMain pos (L ^ 2)) a := (hmain.dep2 a (by omega)).symm
    have hrb : lget (clMain pos (L ^ 2)) (lget (clMain pos (L ^ 2)) b) =
        rt (clMain pos (L ^ 2)) b := (hmain.dep2 b (by omega)).symm
    rw [hra, hrb]
    exact hmain.ghost a b (by omega) (by omega)

end Characterisation

/-! ## Real-distance formulation and the fast_clumps claims -/

theorem d2_nonneg (p q : R3) : 0 ≤ d2 p q := by
  unfold d2
  positivity

theorem close_iff_dist (pos : List R3) {L : ℝ} (hL : 0 ≤ L) (a b : ℕ) :
    Close pos (L ^ 2) a b ↔
      Real.sqrt (d2 (pos.getD a (0,0,0)) (pos.getD b (0,0,0))) < L := by
  unfold Close
  rcases hL.lt_or_eq with h0 | h0
  · rw [Real.sqrt_lt' h0]
  · rw [← h0]
    constructor
    · intro hc
      exact absurd hc (not_lt.mpr (by simpa using d2_nonneg _ _))
    · intro hc
      exact absurd hc (not_lt.mpr (Real.sqrt_nonneg _))

theorem chainRel_iff (pos : List R3) {L : ℝ} (hL : 0 ≤ L) (a b : ℕ) :
    (a < pos.length ∧ b < pos.length ∧ Close pos (L ^ 2) a b) ↔ ChainRel pos L a b := by
  unfold ChainRel
  rw [close_iff_dist pos hL]

theorem eqvGen_of_empty {r : ℕ → ℕ → Prop} (hr : ∀ x y, ¬ r x y) {a b : ℕ}
    (h : Relation.EqvGen r a b) : a = b := by
  rcases eqvGen_support (P := fun _ => False) (fun x y hxy => absurd hxy (hr x y)) h with
    heq | hP
  · exact heq
  · exact absurd hP.1 id

theorem lget_eq_getElem {ls : List ℕ} {i : ℕ} (h : i < ls.length) :
    lget ls i = ls[i] := by
  simp [lget, List.getD, List.getElem?_eq_getElem h]

/-- **C4.**  For every non-empty position array and threshold `L ≥ 0`,
`fast_clumps` returns a labelling in which two particles carry the same
final label iff they are chain-connected by steps of euclidean distance
strictly below `L`; with `L = 0` (and distinct positions) all labels are
distinct, and with `L` exceeding every pairwise distance all labels are
equal. -/
theorem claim_C4_fast_clumps_partition (pos : List R3) (L : ℝ)
    (hL : 0 ≤ L) (h0 : pos ≠ []) :
    ∃ ls, fast_clumps pos L = some ls ∧
      (∀ a b, a < pos.length → b < pos.length →
        (lget ls a = lget ls b ↔ Relation.EqvGen (ChainRel pos L) a b)) ∧
      (L = 0 → List.Pairwise (· ≠ ·) pos →
        ∀ a b, a < pos.length → b < pos.length → lget ls a = lget ls b → a = b) ∧
      ((∀ a b, a < pos.length → b < pos.length →
          Real.sqrt (d2 (pos.getD a (0,0,0)) (pos.getD b (0,0,0))) < L) →
        ∀ a b, a < pos.length → b < pos.length → lget ls a = lget ls b) := by
  obtain ⟨ls, hfc, hlen, hrange, hfix, hchar⟩ := fast_clumps_spec pos L hL h0
  have hchar' : ∀ a b, a < pos.length → b < pos.length →
      (lget ls a = lget ls b ↔ Relation.EqvGen (ChainRel pos L) a b) := by
    intro a b ha hb
    rw [hchar a b ha hb]
    exact eqvGen_congr (fun x y => chainRel_iff pos hL x y)
  refine ⟨ls, hfc, hchar', ?_, ?_⟩
  · intro hL0 hdist a b ha hb heq
    have hE := (hchar' a b ha hb).mp heq
    refine eqvGen_of_empty (fun x y hxy => ?_) hE
    rcases hxy with ⟨-, -, hd⟩
    rw [hL0] at hd
    exact absurd hd (not_lt.mpr (Real.sqrt_nonneg _))
  · intro hall a b ha hb
    exact (hchar' a b ha hb).mpr
      (Relation.EqvGen.rel _ _ ⟨ha, hb, hall a b ha hb⟩)

theorem claim_C4_fast_clumps_partition_witness :
    (0:ℝ) ≤ 2 ∧ ([((0:ℝ),0,0),(1,0,0),(5,0,0)] : List R3) ≠ [] ∧
    (∃ ls, fast_clumps ([((0:ℝ),0,0),(1,0,0),(5,0,0)] : List R3) (2:ℝ) = some ls ∧
      (∀ a b, a < ([((0:ℝ),0,0),(1,0,0),(5,0,0)] : List R3).length →
        b < ([((0:ℝ),0,0),(1,0,0),(5,0,0)] : List R3).length →
        (lget ls a = lget ls b ↔
          Relation.EqvGen (ChainRel ([((0:ℝ),0,0),(1,0,0),(5,0,0)] : List R3) 2) a b)) ∧
      ((2:ℝ) = 0 → List.Pairwise (· ≠ ·) ([((0:ℝ),0,0),(1,0,0),(5,0,0)] : List R3) →
        ∀ a b, a < ([((0:ℝ),0,0),(1,0,0),(5,0,0)] : List R3).length →
          b < ([((0:ℝ),0,0),(1,0,0),(5,0,0)] : List R3).length →
          lget ls a = lget ls b → a = b) ∧
      ((∀ a b, a < ([((0:ℝ),0,0),(1,0,0),(5,0,0)] : List R3).length →
          b < ([((0:ℝ),0,0),(1,0,0),(5,0,0)] : List R3).length →
          Real.sqrt (d2 (([((0:ℝ),0,0),(1,0,0),(5,0,0)] : List R3).getD a (0,0,0))
            (([((0:ℝ),0,0),(1,0,0),(5,0,0)] : List R3).getD b (0,0,0))) < 2) →
        ∀ a b, a < ([((0:ℝ),0,0),(1,0,0),(5,0,0)] : List R3).length →
          b < ([((0:ℝ),0,0),(1,0,0),(5,0,0)] : List R3).length →
          lget ls a = lget ls b)) :=
  ⟨by norm_num, by simp,
   claim_C4_fast_clumps_partition _ _ (by norm_num) (by simp)⟩

/-- **C9.**  After the final resolution pass the label array is at a fixed
point: `labels[labels[i]] == labels[i]` for every valid index. -/
theorem claim_C9_resolution_fixed_point (pos : List R3) (L : ℝ)
    (hL : 0 ≤ L) (h0 : pos ≠ []) :
    ∃ ls, fast_clumps pos L = some ls ∧
      ∀ i, i < pos.length → lget ls (lget ls i) = lget ls i := by
  obtain ⟨ls, hfc, -, -, hfix, -⟩ := fast_clumps_spec pos L hL h0
  exact ⟨ls, hfc, hfix⟩

theorem claim_C9_resolution_fixed_point_witness :
    (0:ℝ) ≤ 2 ∧ ([((0:ℝ),0,0),(1,0,0),(5,0,0)] : List R3) ≠ [] ∧
    (∃ ls, fast_clumps ([((0:ℝ),0,0),(1,0,0),(5,0,0)] : List R3) (2:ℝ) = some ls ∧
      ∀ i, i < ([((0:ℝ),0,0),(1,0,0),(5,0,0)] : List R3).length →
        lget ls (lget ls i) = lget ls i) :=
  ⟨by norm_num, by simp,
   claim_C9_resolution_fixed_point _ _ (by norm_num) (by simp)⟩

/-- **C10.**  `fast_clumps` fails on an empty position array (the write
`labels[0] = 0` raises IndexError before any loop), and on every non-empty
array with `L ≥ 0` it succeeds with every returned label a valid particle
index in `[0, n)`. -/
theorem claim_C10_empty_fails_and_labels_in_range (pos : List R3) (L L' : ℝ)
    (hL : 0 ≤ L) (h0 : pos ≠ []) :
    fast_clumps ([] : List R3) L' = none ∧
    ∃ ls, fast_clumps pos L = some ls ∧ ls.length = pos.length ∧
      ∀ x ∈ ls, x < pos.length := by
  constructor
  · unfold fast_clumps
    split
    · rfl
    · rfl
  · obtain ⟨ls, hfc, hlen, hrange, -, -⟩ := fast_clumps_spec pos L hL h0
    refine ⟨ls, hfc, hlen, ?_⟩
    intro x hx
    obtain ⟨i, hi, rfl⟩ := List.mem_iff_getElem.mp hx
    rw [← lget_eq_getElem hi]
    exact hrange i (by omega)

theorem claim_C10_empty_fails_and_labels_in_range_witness :
    (0:ℝ) ≤ 2 ∧ ([((0:ℝ),0,0),(1,0,0),(5,0,0)] : List R3) ≠ [] ∧
    (fast_clumps ([] : List R3) (7:ℝ) = none ∧
     ∃ ls, fast_clumps ([((0:ℝ),0,0),(1,0,0),(5,0,0)] : List R3) (2:ℝ) = some ls ∧
       ls.length = ([((0:ℝ),0,0),(1,0,0),(5,0,0)] : List R3).length ∧
       ∀ x ∈ ls, x < ([((0:ℝ),0,0),(1,0,0),(5,0,0)] : List R3).length) :=
  ⟨by norm_num, by simp,
   claim_C10_empty_fails_and_labels_in_range _ _ 7 (by norm_num) (by simp)⟩

/-- Mapping an equivalence-closure derivation through a function on valid
indices: every chain node of a bounded relation is a valid index, so the
whole chain can be transported. -/
theorem eqvGen_map_fin {n : ℕ} (r s : ℕ → ℕ → Prop) (f : Fin n → Fin n)
    (hbR : ∀ x y, r x y → x < n ∧ y < n)
    (hcompat : ∀ x y : Fin n, r (x : ℕ) (y : ℕ) → s (f x : ℕ) (f y : ℕ)) :
    ∀ u v : ℕ, Relation.EqvGen r u v → ∀ (hu : u < n) (hv : v < n),
      Relation.EqvGen s (f ⟨u, hu⟩ : ℕ) (f ⟨v, hv⟩ : ℕ) := by
  intro u v h
  induction h with
  | rel x y hxy =>
      intro hu hv
      exact Relation.EqvGen.rel _ _ (hcompat ⟨x, hu⟩ ⟨y, hv⟩ hxy)
  | refl x =>
      intro hu hv
      exact Relation.EqvGen.refl _
  | symm x y hxy ih =>
      intro hu hv
      exact (ih hv hu).symm _ _
  | trans x y z hxy hyz ih1 ih2 =>
      intro hu hv
      rcases eqvGen_support hbR hxy with heq | ⟨-, hy⟩
      · subst heq
        exact ih2 hu hv
      · exact (ih1 hu hy).trans _ _ _ (ih2 hy hv)

/-- **C8.**  `fast_clumps` applied to a permutation of the input induces
the same partition: permuted indices share a class exactly when the
original indices do (the specific root labels may differ). -/
theorem claim_C8_permutation_invariant_partition (pos pos2 : List R3) (L : ℝ)
    (hL : 0 ≤ L) (h0 : pos ≠ [])
    (σ : Equiv.Perm (Fin pos.length))
    (hlen : pos2.length = pos.length)
    (hσ : ∀ i : Fin pos.length, pos2.getD ((σ i : Fin pos.length) : ℕ) (0,0,0) =
      pos.getD (i : ℕ) (0,0,0)) :
    ∃ ls ls2, fast_clumps pos L = some ls ∧ fast_clumps pos2 L = some ls2 ∧
      ∀ a b : Fin pos.length,
        (lget ls2 ((σ a : Fin pos.length) : ℕ) = lget ls2 ((σ b : Fin pos.length) : ℕ) ↔
          lget ls (a : ℕ) = lget ls (b : ℕ)) := by
  have h02 : pos2 ≠ [] := by
    intro hc
    rw [hc] at hlen
    exact h0 (List.length_eq_zero.mp hlen.symm)
  obtain ⟨ls, hfc, -, -, -, hchar⟩ := fast_clumps_spec pos L hL h0
  obtain ⟨ls2, hfc2, -, -, -, hchar2⟩ := fast_clumps_spec pos2 L hL h02
  have hbR : ∀ x y, (x < pos.length ∧ y < pos.length ∧ Close pos (L ^ 2) x y) →
      x < pos.length ∧ y < pos.length := fun x y h => ⟨h.1, h.2.1⟩
  have hbR2 : ∀ x y, (x < pos2.length ∧ y < pos2.length ∧ Close pos2 (L ^ 2) x y) →
      x < pos.length ∧ y < pos.length := by
    rintro x y ⟨hx, hy, -⟩
    rw [hlen] at hx hy
    exact ⟨hx, hy⟩
  have hcompat : ∀ x y : Fin pos.length,
      ((x : ℕ) < pos.length ∧ (y : ℕ) < pos.length ∧ Close pos (L ^ 2) (x : ℕ) (y : ℕ)) →
      (((σ x : Fin pos.length) : ℕ) < pos2.length ∧
       ((σ y : Fin pos.length) : ℕ) < pos2.length ∧
       Close pos2 (L ^ 2) ((σ x : Fin pos.length) : ℕ) ((σ y : Fin pos.length) : ℕ)) := by
    rintro x y ⟨-, -, hc⟩
    refine ⟨by rw [hlen]; exact (σ x).isLt, by rw [hlen]; exact (σ y).isLt, ?_⟩
    unfold Close at hc ⊢
    rw [hσ x, hσ y]
    exact hc
  have hcompat2 : ∀ x y : Fin pos.length,
      ((x : ℕ) < pos2.length ∧ (y : ℕ) < pos2.length ∧ Close pos2 (L ^ 2) (x : ℕ) (y : ℕ)) →
      (((σ.symm x : Fin pos.length) : ℕ) < pos.length ∧
       ((σ.symm y : Fin pos.length) : ℕ) < pos.length ∧
       Close pos (L ^ 2) ((σ.symm x : Fin pos.length) : ℕ) ((σ.symm y : Fin pos.length) : ℕ)) := by
    rintro x y ⟨-, -, hc⟩
    refine ⟨(σ.symm x).isLt, (σ.symm y).isLt, ?_⟩
    unfold Close at hc ⊢
    have hx := hσ (σ.symm x)
    have hy := hσ (σ.symm y)
    rw [Equiv.apply_symm_apply] at hx hy
    rw [hx, hy] at hc
    exact hc
  refine ⟨ls, ls2, hfc, hfc2, ?_⟩
  intro a b
  rw [hchar2 _ _ (by rw [hlen]; exact (σ a).isLt) (by rw [hlen]; exact (σ b).isLt),
      hchar _ _ a.isLt b.isLt]
  constructor
  · intro h
    have hm := eqvGen_map_fin
      (fun x y => x < pos2.length ∧ y < pos2.length ∧ Close pos2 (L ^ 2) x y)
      (fun x y => x < pos.length ∧ y < pos.length ∧ Close pos (L ^ 2) x y)
      (fun x => σ.symm x) hbR2 hcompat2
      _ _ h (σ a).isLt (σ b).isLt
    simpa using hm
  · intro h
    have hm := eqvGen_map_fin
      (fun x y => x < pos.length ∧ y < pos.length ∧ Close pos (L ^ 2) x y)
      (fun x y => x < pos2.length ∧ y < pos2.length ∧ Close pos2 (L ^ 2) x y)
      (fun x => σ x) hbR hcompat
      _ _ h a.isLt b.isLt
    simpa using hm

theorem claim_C8_permutation_invariant_partition_witness :
    (0:ℝ) ≤ 2 ∧ ([((0:ℝ),0,0),(1,0,0),(5,0,0)] : List R3) ≠ [] ∧
    (∃ ls ls2, fast_clumps ([((0:ℝ),0,0),(1,0,0),(5,0,0)] : List R3) (2:ℝ) = some ls ∧
      fast_clumps ([((1:ℝ),0,0),(0,0,0),(5,0,0)] : List R3) (2:ℝ) = some ls2 ∧
      ∀ a b : Fin ([((0:ℝ),0,0),(1,0,0),(5,0,0)] : List R3).length,
        (lget ls2 ((Equiv.swap (⟨0, by norm_num⟩ : Fin ([((0:ℝ),0,0),(1,0,0),(5,0,0)] : List R3).length) ⟨1, by norm_num⟩ a : Fin ([((0:ℝ),0,0),(1,0,0),(5,0,0)] : List R3).length) : ℕ) =
            lget ls2 ((Equiv.swap (⟨0, by norm_num⟩ : Fin ([((0:ℝ),0,0),(1,0,0),(5,0,0)] : List R3).length) ⟨1, by norm_num⟩ b : Fin ([((0:ℝ),0,0),(1,0,0),(5,0,0)] : List R3).length) : ℕ) ↔
          lget ls (a : ℕ) = lget ls (b : ℕ))) := by
  refine ⟨by norm_num, by simp, ?_⟩
  exact claim_C8_permutation_invariant_partition
    ([((0:ℝ),0,0),(1,0,0),(5,0,0)] : List R3)
    ([((1:ℝ),0,0),(0,0,0),(5,0,0)] : List R3) 2
    (by norm_num) (by simp)
    (Equiv.swap (⟨0, by norm_num⟩ : Fin ([((0:ℝ),0,0),(1,0,0),(5,0,0)] : List R3).length)
      ⟨1, by norm_num⟩)
    (by simp)
    (by
      intro i
      rcases i with ⟨iv, hiv⟩
      have hiv3 : iv < 3 := hiv
      interval_cases iv <;>
        simp [Equiv.swap_apply_def, Fin.ext_iff, lget] <;> norm_num)

/-! ## The dispatcher and the kory stub at concrete inputs -/

/-- **C1.**  On a fully valid two-particle cloud the dispatcher raises
`NameError` for `jutzi`, `naor1` and `naor2` (undefined helper names /
unassigned locals), returns the hard-coded kory stub value (whose
membership vector has length 3, not 2), and raises `AssertionError`
exactly at invalid inputs (non-positive mass, unrecognised method name,
mismatched lengths). -/
theorem claim_C1_validation_ok_but_dispatch_broken :
    bound_mass [((0:ℝ),0,0), (1,0,0)] [(0,0,0), (0,0,0)] [1, 1] "jutzi" (1,1,1) =
      .error .nameError ∧
    bound_mass [((0:ℝ),0,0), (1,0,0)] [(0,0,0), (0,0,0)] [1, 1] "naor1" (1,1,1) =
      .error .nameError ∧
    bound_mass [((0:ℝ),0,0), (1,0,0)] [(0,0,0), (0,0,0)] [1, 1] "naor2" (1,1,1) =
      .error .nameError ∧
    (bound_mass [((0:ℝ),0,0), (1,0,0)] [(0,0,0), (0,0,0)] [1, 1] "kory" (1,1,1) =
      .ok (1, [true, false, false]) ∧ ([true, false, false] : List Bool).length ≠ 2) ∧
    bound_mass [((0:ℝ),0,0), (1,0,0)] [(0,0,0), (0,0,0)] [1, -1] "kory" (1,1,1) =
      .error .assertionError ∧
    bound_mass [((0:ℝ),0,0), (1,0,0)] [(0,0,0), (0,0,0)] [1, 1] "quux" (1,1,1) =
      .error .assertionError ∧
    bound_mass [((0:ℝ),0,0), (1,0,0)] [(0,0,0), (0,0,0)] [1] "kory" (1,1,1) =
      .error .assertionError := by
  refine ⟨?_, ?_, ?_, ⟨?_, by decide⟩, ?_, ?_, ?_⟩
  · rw [bound_mass, if_neg (by simp), if_neg (by decide), if_pos rfl]
  · rw [bound_mass, if_neg (by simp), if_neg (by decide), if_neg (by decide), if_pos rfl]
  · rw [bound_mass, if_neg (by simp), if_neg (by decide), if_neg (by decide),
      if_neg (by decide)]
  · rw [bound_mass, if_neg (by simp), if_pos rfl]
    rfl
  · rw [bound_mass, if_pos (by norm_num)]
  · rw [bound_mass, if_pos (by simp)]
  · rw [bound_mass, if_pos (by norm_num)]

/-- **C2.**  The kory method is a stub: on the two-particle scenario
(masses 1 kg, 1 m apart, zero relative velocity, MKS units) it returns the
hard-coded pair `(1, [True, False, False])` instead of the documented
bound mass 2 with both particles marked bound. -/
theorem claim_C2_kory_is_hardcoded_stub :
    bound_mass [((0:ℝ),0,0), (1,0,0)] [(0,0,0), (0,0,0)] [1, 1] "kory" (1,1,1) =
      .ok (1, [true, false, false]) ∧
    ¬ (∃ r, bound_mass [((0:ℝ),0,0), (1,0,0)] [(0,0,0), (0,0,0)] [1, 1] "kory" (1,1,1) =
        .ok r ∧ r.1 = 2 ∧ r.2 = [true, true]) := by
  have hval : bound_mass [((0:ℝ),0,0), (1,0,0)] [(0,0,0), (0,0,0)] [1, 1] "kory" (1,1,1) =
      .ok (1, [true, false, false]) := by
    rw [bound_mass, if_neg (by simp), if_pos rfl]
    rfl
  refine ⟨hval, ?_⟩
  rintro ⟨r, hr, h1, h2⟩
  rw [hval] at hr
  injection hr with hr
  rw [← hr] at h1
  norm_num at h1

/-- **C6.**  Two distinct particles at exactly coincident positions: the
potential evaluation has no zero-separation guard and the kory solve
completes normally (numpy float division by zero yields `inf`, not an
exception), rather than aborting with a singularity error. -/
theorem claim_C6_coincident_positions_no_error :
    bound_mass [((0:ℝ),0,0), (0,0,0)] [(0,0,0), (0,0,0)] [1, 1] "kory" (1,1,1) =
      .ok (1, [true, false, false]) := by
  rw [bound_mass, if_neg (by simp), if_pos rfl]
  rfl

/-- **C7.**  The bound-mass scalar returned by a successful solve does not
equal the sum of the masses of true-membership particles: with masses
`[5, 5]` the kory stub returns scalar `1` while the membership vector
`[True, False, False]` selects mass `5`. -/
theorem claim_C7_bound_sum_inconsistent :
    bound_mass [((0:ℝ),0,0), (3,0,0)] [(0,0,0), (0,0,0)] [5, 5] "kory" (1,1,1) =
      .ok (1, [true, false, false]) ∧
    boundSum [5, 5] [true, false, false] = (5:ℝ) ∧
    (5:ℝ) ≠ 1 := by
  refine ⟨?_, ?_, by norm_num⟩
  · rw [bound_mass, if_neg (by simp), if_pos rfl]
    rfl
  · unfold boundSum
    norm_num [Finset.sum_range_succ, lget]

/-! ## The pairwise-potential accumulation of `_potential` -/

theorem dist3_comm (x y z : List ℝ) (i j : ℕ) :
    dist3 x y z i j = dist3 x y z j i := by
  unfold dist3
  congr 1
  ring

theorem potStep_eval (x y z m : List ℝ) {j k : ℕ} (hk : k < j) (U : ℕ → ℝ) :
    potStep x y z m j k U = fun i =>
      if i = j then U j - m.getD k 0 / dist3 x y z j k
      else if i = k then U k - m.getD j 0 / dist3 x y z j k
      else U i := by
  funext i
  unfold potStep dist3
  by_cases hij : i = j
  · rw [if_pos hij, hij, Function.update_noteq (by omega : j ≠ k), Function.update_same]
  · rw [if_neg hij]
    by_cases hik : i = k
    · rw [if_pos hik, hik, Function.update_same, Function.update_noteq (by omega : k ≠ j)]
    · rw [if_neg hik, Function.update_noteq hik, Function.update_noteq hij]

theorem potInner_eval (x y z m : List ℝ) (j : ℕ) (U : ℕ → ℝ) :
    (List.range j).foldl (fun U k => potStep x y z m j k U) U = fun i =>
      if i = j then U j - ∑ k ∈ Finset.range j, m.getD k 0 / dist3 x y z j k
      else if i < j then U i - m.getD j 0 / dist3 x y z j i
      else U i := by
  suffices h : ∀ t, t ≤ j →
      (List.range t).foldl (fun U k => potStep x y z m j k U) U = fun i =>
        if i = j then U j - ∑ k ∈ Finset.range t, m.getD k 0 / dist3 x y z j k
        else if i < t then U i - m.getD j 0 / dist3 x y z j i
        else U i by
    exact h j le_rfl
  intro t ht
  induction t with
  | zero =>
      funext i
      simp only [List.range_zero, List.foldl_nil, Finset.range_zero, Finset.sum_empty]
      by_cases hij : i = j
      · rw [if_pos hij, hij, sub_zero]
      · rw [if_neg hij, if_neg (Nat.not_lt_zero i)]
  | succ p ih =>
      have hp : p < j := by omega
      rw [List.range_succ, List.foldl_append, List.foldl_cons, List.foldl_nil,
        ih (by omega), potStep_eval x y z m hp]
      funext i
      simp only []
      by_cases hij : i = j
      · subst hij
        simp only [eq_self_iff_true, if_true, Finset.sum_range_succ]
        ring
      · rw [if_neg hij, if_neg hij, if_neg hij]
        by_cases hip : i = p
        · rw [if_pos hip, hip, if_neg (by omega : ¬ p = j), if_neg (by omega : ¬ p < p),
            if_pos (by omega : p < p + 1)]
        · rw [if_neg hip]
          by_cases hlt : i < p
          · rw [if_pos hlt, if_pos (by omega : i < p + 1)]
          · rw [if_neg hlt, if_neg (by omega : ¬ i < p + 1)]

theorem potFold_eval (x y z m : List ℝ) (msk : List Bool) (n : ℕ) :
    ((List.range n).foldl
      (fun U j =>
        if msk.getD j false then
          (List.range j).foldl (fun U k => potStep x y z m j k U) U
        else U)
      (fun _ => 0)) = fun i =>
      -(∑ j ∈ Finset.range n,
          if msk.getD j false then
            (if i = j then ∑ k ∈ Finset.range j, m.getD k 0 / dist3 x y z j k
             else if i < j then m.getD j 0 / dist3 x y z j i
             else 0)
          else 0) := by
  induction n with
  | zero =>
      funext i
      simp
  | succ p ih =>
      rw [List.range_succ, List.foldl_append, List.foldl_cons, List.foldl_nil, ih]
      by_cases hm : msk.getD p false
      · rw [if_pos hm, potInner_eval]
        funext i
        rw [Finset.sum_range_succ, if_pos hm]
        by_cases hij : i = p
        · subst hij
          rw [if_pos rfl, if_pos rfl]
          have hz : (∑ j ∈ Finset.range i,
              if msk.getD j false then
                (if i = j then ∑ k ∈ Finset.range j, m.getD k 0 / dist3 x y z j k
                 else if i < j then m.getD j 0 / dist3 x y z j i
                 else 0)
              else 0) = 0 := by
            refine Finset.sum_eq_zero ?_
            intro j hj
            rw [Finset.mem_range] at hj
            rw [if_neg (by omega : ¬ i = j), if_neg (by omega : ¬ i < j)]
            split_ifs <;> rfl
          rw [hz]
          ring
        · rw [if_neg hij, if_neg hij]
          by_cases hlt : i < p
          · rw [if_pos hlt, if_pos hlt]
            ring
          · rw [if_neg hlt, if_neg hlt, add_zero]
      · rw [if_neg hm]
        funext i
        rw [Finset.sum_range_succ, if_neg hm, add_zero]

theorem sum_if_pull {s : Finset ℕ} {c : Prop} [Decidable c] (f : ℕ → ℝ) :
    (if c then ∑ j ∈ s, f j else 0) = ∑ j ∈ s, if c then f j else 0 := by
  split_ifs with h
  · rfl
  · rw [Finset.sum_const_zero]

theorem contribSum_eq (x y z m : List ℝ) (msk : List Bool) {i n : ℕ} (hi : i < n) :
    (∑ j ∈ Finset.range n,
      if msk.getD j false then
        (if i = j then ∑ k ∈ Finset.range j, m.getD k 0 / dist3 x y z j k
         else if i < j then m.getD j 0 / dist3 x y z j i
         else 0)
      else 0) =
    ∑ j ∈ Finset.range n,
      if j ≠ i ∧ msk.getD (max i j) false then m.getD j 0 / dist3 x y z i j else 0 := by
  have hdecomp : ∀ f : ℕ → ℝ, ∑ j ∈ Finset.range n, f j =
      ((∑ j ∈ Finset.range i, f j) + f i) + ∑ j ∈ Finset.Ico (i+1) n, f j := by
    intro f
    rw [Finset.range_eq_Ico, ← Finset.sum_Ico_consecutive f (Nat.zero_le i) (le_of_lt hi),
      Finset.sum_eq_sum_Ico_succ_bot hi f, ← Finset.range_eq_Ico]
    ring
  rw [hdecomp, hdecomp]
  have hL1 : (∑ j ∈ Finset.range i,
      if msk.getD j false then
        (if i = j then ∑ k ∈ Finset.range j, m.getD k 0 / dist3 x y z j k
         else if i < j then m.getD j 0 / dist3 x y z j i
         else 0)
      else 0) = 0 := by
    refine Finset.sum_eq_zero ?_
    intro j hj
    rw [Finset.mem_range] at hj
    rw [if_neg (by omega : ¬ i = j), if_neg (by omega : ¬ i < j)]
    split_ifs <;> rfl
  have hLmid : (if msk.getD i false then
      (if i = i then ∑ k ∈ Finset.range i, m.getD k 0 / dist3 x y z i k
       else if i < i then m.getD i 0 / dist3 x y z i i
       else 0)
      else 0) =
      ∑ j ∈ Finset.range i, (if msk.getD i false then m.getD j 0 / dist3 x y z i j else 0) := by
    rw [if_pos rfl]
    exact sum_if_pull _
  have hRmid : (if i ≠ i ∧ msk.getD (max i i) false
      then m.getD i 0 / dist3 x y z i i else 0) = 0 := by
    rw [if_neg]
    intro hcon
    exact hcon.1 rfl
  have hR1 : (∑ j ∈ Finset.range i,
      if j ≠ i ∧ msk.getD (max i j) false then m.getD j 0 / dist3 x y z i j else 0) =
      ∑ j ∈ Finset.range i, (if msk.getD i false then m.getD j 0 / dist3 x y z i j else 0) := by
    refine Finset.sum_congr rfl ?_
    intro j hj
    rw [Finset.mem_range] at hj
    rw [Nat.max_eq_left (by omega : j ≤ i)]
    by_cases hmsk : msk.getD i false
    · rw [if_pos ⟨by omega, hmsk⟩, if_pos hmsk]
    · rw [if_neg (fun hcon => hmsk hcon.2), if_neg hmsk]
  have hL3 : (∑ j ∈ Finset.Ico (i+1) n,
      if msk.getD j false then
        (if i = j then ∑ k ∈ Finset.range j, m.getD k 0 / dist3 x y z j k
         else if i < j then m.getD j 0 / dist3 x y z j i
         else 0)
      else 0) =
      ∑ j ∈ Finset.Ico (i+1) n,
        (if j ≠ i ∧ msk.getD (max i j) false then m.getD j 0 / dist3 x y z i j else 0) := by
    refine Finset.sum_congr rfl ?_
    intro j hj
    rw [Finset.mem_Ico] at hj
    rw [Nat.max_eq_right (by omega : i ≤ j)]
    by_cases hmsk : msk.getD j false
    · rw [if_pos hmsk, if_neg (by omega : ¬ i = j), if_pos (by omega : i < j),
        if_pos ⟨by omega, hmsk⟩, dist3_comm x y z j i]
    · rw [if_neg hmsk, if_neg (fun hcon => hmsk hcon.2)]
  rw [hL1, hLmid, hRmid, hR1, hL3]
  ring

/-- **C5 (amended).**  The per-particle potential computed by `_potential`
equals `-Σ m[j]/|r_i - r_j|` over `j ≠ i`, with the sum restricted — when
a mask is supplied — to the pairs whose *higher-indexed* member is masked
(the source tests only `mask[j]` for the outer loop index `j`, and for a
pair the outer index is the larger one); with no mask it is the full sum.
No assumption on distinct positions is needed in exact arithmetic: both
sides carry the same division-by-zero convention. -/
theorem claim_C5_potential_sum_mask_higher_index (x y z m : List ℝ)
    (msk : List Bool) (i : ℕ) (hi : i < x.length) :
    _potential x y z m (some msk) i =
      -(∑ j ∈ Finset.range x.length,
          if j ≠ i ∧ msk.getD (max i j) false then m.getD j 0 / dist3 x y z i j else 0) ∧
    _potential x y z m none i =
      -(∑ j ∈ Finset.range x.length,
          if j ≠ i then m.getD j 0 / dist3 x y z i j else 0) := by
  have hsome : _potential x y z m (some msk) =
      (List.range x.length).foldl
        (fun U j =>
          if msk.getD j false then
            (List.range j).foldl (fun U k => potStep x y z m j k U) U
          else U)
        (fun _ => 0) := rfl
  have hnone : _potential x y z m none =
      (List.range x.length).foldl
        (fun U j =>
          if (List.replicate x.length true).getD j false then
            (List.range j).foldl (fun U k => potStep x y z m j k U) U
          else U)
        (fun _ => 0) := rfl
  constructor
  · rw [hsome, potFold_eval, neg_inj]
    exact contribSum_eq x y z m msk hi
  · rw [hnone, potFold_eval, neg_inj]
    rw [contribSum_eq x y z m _ hi]
    refine Finset.sum_congr rfl ?_
    intro j hj
    rw [Finset.mem_range] at hj
    have hrep : (List.replicate x.length true).getD (max i j) false = true := by
      have hmax : max i j < x.length := by omega
      simp [List.getD, List.getElem?_replicate, hmax]
    rw [hrep]
    simp

theorem claim_C5_potential_sum_mask_higher_index_witness :
    (0 : ℕ) < ([(0:ℝ), 3] : List ℝ).length ∧
    (_potential [(0:ℝ), 3] [0, 4] [0, 0] [2, 5] (some [true, true]) 0 =
        -(∑ j ∈ Finset.range ([(0:ℝ), 3] : List ℝ).length,
            if j ≠ 0 ∧ ([true, true] : List Bool).getD (max 0 j) false
            then ([(2:ℝ), 5] : List ℝ).getD j 0 / dist3 [(0:ℝ), 3] [0, 4] [0, 0] 0 j else 0) ∧
     _potential [(0:ℝ), 3] [0, 4] [0, 0] [2, 5] none 0 =
        -(∑ j ∈ Finset.range ([(0:ℝ), 3] : List ℝ).length,
            if j ≠ 0 then ([(2:ℝ), 5] : List ℝ).getD j 0 / dist3 [(0:ℝ), 3] [0, 4] [0, 0] 0 j
            else 0)) :=
  ⟨by norm_num,
   claim_C5_potential_sum_mask_higher_index [(0:ℝ), 3] [0, 4] [0, 0] [2, 5] [true, true] 0
     (by norm_num)⟩

/-- **C5 (counterexample).**  With mask `[False, True]` the pair `(1,0)`
is *not* a masked pair (particle 0 is unselected), yet the source still
accumulates both `U[1] -= m[0]/dr` and `U[0] -= m[1]/dr` because only the
outer index is tested: `U[0]` comes out `-1`, while the claim's
both-selected formula gives `0`. -/
theorem claim_C5_masked_pairs_counterexample :
    _potential [(0:ℝ), 1] [0, 0] [0, 0] [1, 1] (some [false, true]) 0 = -1 ∧
    specPotentialMaskedPairs [(0:ℝ), 1] [0, 0] [0, 0] [1, 1] [false, true] 0 = 0 ∧
    _potential [(0:ℝ), 1] [0, 0] [0, 0] [1, 1] (some [false, true]) 0 ≠
      specPotentialMaskedPairs [(0:ℝ), 1] [0, 0] [0, 0] [1, 1] [false, true] 0 := by
  have hval : _potential [(0:ℝ), 1] [0, 0] [0, 0] [1, 1] (some [false, true]) 0 = -1 := by
    have hsome : _potential [(0:ℝ), 1] [0, 0] [0, 0] [1, 1] (some [false, true]) =
        (List.range ([(0:ℝ), 1] : List ℝ).length).foldl
          (fun U j =>
            if ([false, true] : List Bool).getD j false then
              (List.range j).foldl
                (fun U k => potStep [(0:ℝ), 1] [0, 0] [0, 0] [1, 1] j k U) U
            else U)
          (fun _ => 0) := rfl
    rw [hsome, potFold_eval]
    have hlen : ([(0:ℝ), 1] : List ℝ).length = 2 := rfl
    rw [hlen]
    simp only [Finset.sum_range_succ, Finset.sum_range_zero, List.getD]
    norm_num [dist3, Real.sqrt_one]
  have hspec : specPotentialMaskedPairs [(0:ℝ), 1] [0, 0] [0, 0] [1, 1] [false, true] 0 = 0 := by
    unfold specPotentialMaskedPairs
    have hlen : ([(0:ℝ), 1] : List ℝ).length = 2 := rfl
    rw [hlen, Finset.sum_range_succ, Finset.sum_range_succ, Finset.sum_range_zero]
    norm_num [List.getD]
  refine ⟨hval, hspec, ?_⟩
  rw [hval, hspec]
  norm_num


/-! ## C3: the naor2 bound-mass pass and the clump center of mass -/

/-- `fast_clumps` on the concrete cloud `naor2Pos` with length scale `2`:
particles 0 and 1 form one clump (distance 1), particle 2 is isolated
(distances 10 and sqrt 101 exceed the scale). -/
theorem naor2_clumps_eval : fast_clumps naor2Pos 2 = some [1,1,2] := by
  unfold fast_clumps
  rw [if_neg (by norm_num), if_neg (by norm_num [naor2Pos])]
  have hg0 : naor2Pos.getD 0 (0,0,0) = ((1000000:ℝ),0,0) := rfl
  have hg1 : naor2Pos.getD 1 (0,0,0) = ((1000000:ℝ),1,0) := rfl
  have hg2 : naor2Pos.getD 2 (0,0,0) = ((1000010:ℝ),0,0) := rfl
  have hmain : clMain naor2Pos ((2:ℝ)^2) = [1,1,2] := by
    unfold clMain
    rw [show naor2Pos.length = 3 from rfl]
    rw [show List.range' 1 (3-1) = [1,2] from rfl]
    simp only [List.foldl_cons, List.foldl_nil]
    rw [show (((List.replicate 3 0).set 0 0) : List ℕ).set 1 1 = [0,1,0] from rfl]
    have h1 : clPass naor2Pos ((2:ℝ)^2) 1 [0,1,0] = [1,1,0] := by
      show clInner naor2Pos ((2:ℝ)^2) 1 0 [0,1,0] = [1,1,0]
      simp only [clInner]
      rw [hg0, hg1, if_pos (by norm_num [d2])]
      rfl
    rw [h1]
    rw [show (([1,1,0] : List ℕ).set 2 2) = [1,1,2] from rfl]
    show clInner naor2Pos ((2:ℝ)^2) 2 1
      (clInner naor2Pos ((2:ℝ)^2) 2 0 [1,1,2]) = [1,1,2]
    have h2 : clInner naor2Pos ((2:ℝ)^2) 2 0 [1,1,2] = [1,1,2] := by
      simp only [clInner]
      rw [hg0, hg2, if_neg (by norm_num [d2])]
      rfl
    rw [h2]
    simp only [clInner]
    rw [hg1, hg2, if_neg (by norm_num [d2])]
    rfl
  rw [hmain]
  rfl

/-- **C3.**  The claim says naor2 marks as additionally bound exactly the
outside particles whose kinetic energy plus the point-mass potential
*relative to the selected set's center of mass* is negative.  The code
instead evaluates the potential at the particle's distance from the
coordinate origin (`-GM/sqrt(dot(pos[k],pos[k]))`), never using the
`R_com` it computed.  On the cloud `naor2Pos` (clump of two unit masses
far from the origin, a third slow particle 10 units away): the code
returns bound mass `2` with membership `[true, true, false]` (particle 2
rejected, because its origin-distance potential `-2/1000010` is
negligible), while the claim's COM-relative energy test for particle 2,
`-G*M_clump/|pos_2 - R_com| + |vel_2|^2 = -2/sqrt(401/4) + 1/100`, is
negative, so the claimed rule would mark particle 2 bound. -/
theorem claim_C3_naor2_potential_from_origin_not_com :
    _bm_naor2 naor2Pos naor2Vel naor2M 2 naor2U = .ok (2, [true, true, false]) ∧
    -(bigG naor2U * (maskListP naor2M [true, true, false]).sum) /
        Real.sqrt (d2 (naor2Pos.getD 2 (0,0,0))
          (wsum ((maskListP naor2Pos [true, true, false]).map (·.1))
              (maskListP naor2M [true, true, false]) /
              (maskListP naor2M [true, true, false]).sum,
           wsum ((maskListP naor2Pos [true, true, false]).map (·.2.1))
              (maskListP naor2M [true, true, false]) /
              (maskListP naor2M [true, true, false]).sum,
           wsum ((maskListP naor2Pos [true, true, false]).map (·.2.2))
              (maskListP naor2M [true, true, false]) /
              (maskListP naor2M [true, true, false]).sum)) +
      dot3 (naor2Vel.getD 2 (0,0,0)) (naor2Vel.getD 2 (0,0,0)) < 0 := by
  constructor
  ·
    unfold _bm_naor2
    rw [if_neg (not_not_intro ⟨by norm_num [naor2M], by norm_num, by norm_num [naor2U],
      by norm_num [naor2U], by norm_num [naor2U], rfl, rfl, by norm_num [naor2Pos]⟩)]
    rw [naor2_clumps_eval]
    dsimp only []
    have hc1 : classMass [1,1,2] naor2M 1 = 2 := by
      unfold classMass
      rw [show maskListP naor2M (List.map (fun l => l == 1) [1,1,2]) = [(1:ℝ), 1] from rfl]
      norm_num
    have hc2 : classMass [1,1,2] naor2M 2 = 1 := by
      unfold classMass
      rw [show maskListP naor2M (List.map (fun l => l == 2) [1,1,2]) = [(1:ℝ)] from rfl]
      norm_num
    have hargmax : npArgmax [(2:ℝ), 1] = 0 := by
      unfold npArgmax
      rw [show ([(2:ℝ), 1]).length = 2 from rfl, show List.range 2 = [0, 1] from rfl]
      simp only [List.foldl_cons, List.foldl_nil]
      rw [if_neg (show ¬ (([(2:ℝ), 1]).getD 0 0 < ([(2:ℝ), 1]).getD 0 0) from by norm_num)]
      rw [if_neg (show ¬ (([(2:ℝ), 1]).getD 0 0 < ([(2:ℝ), 1]).getD 1 0) from by norm_num)]
    simp only [show npUnique [1,1,2] = [1,2] from rfl, List.map_cons, List.map_nil]
    simp only [hc1, hc2, hargmax]
    simp only [show (([1,2] : List ℕ)).getD 0 0 = 1 from rfl]
    simp only [show ((1:ℕ) == 1) = true from rfl, show ((2:ℕ) == 1) = false from rfl]
    simp only [show (maskListP naor2M [true,true,false]).sum = 2 from by
      rw [show maskListP naor2M [true,true,false] = [(1:ℝ), 1] from rfl]; norm_num]
    simp only [show bigG naor2U = 1 from by unfold bigG naor2U; norm_num]
    rw [show List.range naor2Pos.length = [0,1,2] from rfl]
    simp only [List.foldl_cons, List.foldl_nil]
    simp only [show ([true,true,false].getD 0 false) = true from rfl,
      show ([true,true,false].getD 1 false) = true from rfl,
      show ([true,true,false].getD 2 false) = false from rfl,
      eq_self_iff_true, if_true, Bool.false_eq_true, if_false]
    have hsqrt : Real.sqrt (dot3 (naor2Pos.getD 2 (0,0,0)) (naor2Pos.getD 2 (0,0,0)))
        = 1000010 := by
      rw [show dot3 (naor2Pos.getD 2 (0,0,0)) (naor2Pos.getD 2 (0,0,0)) = ((1000010:ℝ))^2 from by
        rw [show naor2Pos.getD 2 (0,0,0) = ((1000010:ℝ),0,0) from rfl]; unfold dot3; ring]
      exact Real.sqrt_sq (by norm_num)
    have hvel : dot3 (naor2Vel.getD 2 (0,0,0)) (naor2Vel.getD 2 (0,0,0)) = 1/100 := by
      rw [show naor2Vel.getD 2 (0,0,0) = ((1/10:ℝ),0,0) from rfl]; unfold dot3; norm_num
    rw [if_neg (by rw [hsqrt, hvel]; norm_num)]
  ·
    rw [show maskListP naor2M [true, true, false] = [(1:ℝ), 1] from rfl]
    rw [show maskListP naor2Pos [true, true, false]
        = [((1000000:ℝ),0,0), ((1000000:ℝ),1,0)] from rfl]
    rw [show ([(1:ℝ), 1]).sum = 2 from by norm_num]
    rw [show wsum ((([((1000000:ℝ),0,0), ((1000000:ℝ),1,0)] : List R3)).map (·.1)) [(1:ℝ), 1]
        = 2000000 from by norm_num [wsum]]
    rw [show wsum ((([((1000000:ℝ),0,0), ((1000000:ℝ),1,0)] : List R3)).map (·.2.1)) [(1:ℝ), 1]
        = 1 from by norm_num [wsum]]
    rw [show wsum ((([((1000000:ℝ),0,0), ((1000000:ℝ),1,0)] : List R3)).map (·.2.2)) [(1:ℝ), 1]
        = 0 from by norm_num [wsum]]
    rw [show naor2Pos.getD 2 (0,0,0) = ((1000010:ℝ),0,0) from rfl]
    rw [show naor2Vel.getD 2 (0,0,0) = ((1/10:ℝ),0,0) from rfl]
    rw [show bigG naor2U = 1 from by unfold bigG naor2U; norm_num]
    rw [show d2 ((1000010:ℝ),0,0) ((2000000/2 : ℝ), 1/2, 0/2) = 401/4 from by
      unfold d2; norm_num]
    rw [show dot3 ((1/10:ℝ),0,0) ((1/10:ℝ),0,0) = 1/100 from by unfold dot3; norm_num]
    have hs0 : 0 < Real.sqrt (401/4) := Real.sqrt_pos.mpr (by norm_num)
    have hs11 : Real.sqrt (401/4) < 11 := by
      rw [show (401/4 : ℝ) = 401/4 from rfl]
      exact (Real.sqrt_lt' (by norm_num)).mpr (by norm_num)
    have hdiv : (2:ℝ)/11 < 2 / Real.sqrt (401/4) :=
      div_lt_div_of_pos_left (by norm_num) hs0 hs11
    have h1 : -(1*2:ℝ) / Real.sqrt (401/4) = -(2 / Real.sqrt (401/4)) := by ring
    rw [h1]
    linarith
